import Mathlib

/- Verification of the core of the GBFS visualizer: geometry utilities, zone
overlap resolution, vehicle-type precedence analysis, the virtual-station
render state machine, and the load pipeline.  All definitions are shallow
embeddings of the JavaScript in `visualizer.js`; JavaScript numbers are
modelled as exact rationals, and out-of-range array accesses (which would
throw in JavaScript) are totalised with explicit defaults that are only
reachable outside the behaviour the claims quantify over. -/

namespace GBFS

/-- A Leaflet latitude/longitude pair as consumed by `isPointInPolygon`
(`visualizer.js` lines 1120-1134). -/
structure LatLng where
  lat : ℚ
  lng : ℚ
deriving DecidableEq, Inhabited

/-- Loop-body condition of `isPointInPolygon`: the ray-casting test for the
edge between vertex `i` and its predecessor `j`, literally
`((yi > y) !== (yj > y)) && (x < (xj - xi) * (y - yi) / (yj - yi) + xi)`
with `x = point.lat`, `y = point.lng`, `pi = polygon[i]`, `pj = polygon[j]`.
The division by zero case (Lean convention `q / 0 = 0`) is only reachable
when the first conjunct is already false. -/
def edgeIntersects (point pI pJ : LatLng) : Bool :=
  (decide (pI.lng > point.lng) != decide (pJ.lng > point.lng)) &&
    decide (point.lat <
      (pJ.lat - pI.lat) * (point.lng - pI.lng) / (pJ.lng - pI.lng) + pI.lat)

/-- One iteration of the `for (let i = 0, j = polygon.length - 1; i < polygon.length; j = i++)`
loop of `isPointInPolygon`: `j` is the predecessor index of `i`, wrapping to
the last index when `i = 0`; `inside` is flipped when the edge test fires. -/
def pnpolyStep (point : LatLng) (polygon : List LatLng) (inside : Bool) (i : ℕ) : Bool :=
  let j := if i = 0 then polygon.length - 1 else i - 1
  if edgeIntersects point (polygon.getD i default) (polygon.getD j default) then
    !inside
  else
    inside

/-- `isPointInPolygon(point, polygon)` (`visualizer.js` 1120-1134): even-odd
ray casting over a single ring, starting from `inside = false`. -/
def isPointInPolygon (point : LatLng) (polygon : List LatLng) : Bool :=
  (List.range polygon.length).foldl (pnpolyStep point polygon) false

/-- `calculatePolygonCentroid(coordinates)` (`visualizer.js` 1466-1477):
arithmetic mean of the vertices of the first ring of the first polygon of a
GeoJSON MultiPolygon coordinate array, whose entries are `(lng, lat)` pairs;
the result is returned as `(lat, lng)` (= `[y / ring.length, x / ring.length]`).
The `for (const coord of ring)` accumulation of `x` and `y` is written as a
sum over the ring. -/
def calculatePolygonCentroid (coordinates : List (List (List (ℚ × ℚ)))) : ℚ × ℚ :=
  let ring := (coordinates.headD []).headD []
  let x := (ring.map Prod.fst).sum
  let y := (ring.map Prod.snd).sum
  (y / (ring.length : ℚ), x / (ring.length : ℚ))

/-- The ray-casting edge test is insensitive to the direction in which the
edge is traversed: when the two endpoints straddle the horizontal line
through the point, both directions compare `point.lat` against the same
line abscissa, and otherwise both tests are false. -/
theorem edgeIntersects_comm (p a b : LatLng) :
    edgeIntersects p a b = edgeIntersects p b a := by
  unfold edgeIntersects
  rcases eq_or_ne a.lng b.lng with h | h
  · simp [h]
  · have hED : (b.lat - a.lat) * (p.lng - a.lng) / (b.lng - a.lng) + a.lat =
        (a.lat - b.lat) * (p.lng - b.lng) / (a.lng - b.lng) + b.lat := by
      rw [div_add' _ _ _ (sub_ne_zero.mpr (Ne.symm h)),
        div_add' _ _ _ (sub_ne_zero.mpr h), div_eq_div_iff
          (sub_ne_zero.mpr (Ne.symm h)) (sub_ne_zero.mpr h)]
      ring
    rw [hED]
    cases hA : decide (a.lng > p.lng) <;> cases hB : decide (b.lng > p.lng) <;>
      simp [hA, hB]

/-- A ring with fewer than three points never passes the ray-casting test:
the empty and one-point rings produce no flip, and a two-point ring flips
either zero or two times because its single edge is scanned once in each
direction. -/
theorem isPointInPolygon_of_short (p : LatLng) (ring : List LatLng)
    (h : ring.length < 3) : isPointInPolygon p ring = false := by
  match ring, h with
  | [], _ => rfl
  | [a], _ =>
    show List.foldl (pnpolyStep p [a]) false [0] = false
    simp [pnpolyStep, edgeIntersects]
  | [a, b], _ =>
    have hc := edgeIntersects_comm p a b
    show List.foldl (pnpolyStep p [a, b]) false [0, 1] = false
    cases hcv : edgeIntersects p a b with
    | false =>
      have hcv2 : edgeIntersects p b a = false := hc ▸ hcv
      simp [pnpolyStep, hcv, hcv2]
    | true =>
      have hcv2 : edgeIntersects p b a = true := hc ▸ hcv
      simp [pnpolyStep, hcv, hcv2]

/-- A loaded zone as stored in `allZones` (`visualizer.js` 1369-1372): the
Leaflet-format MultiPolygon (`latLngs` = polygons, each a list of rings, each
a list of `(lat, lng)` points).  The GeoJSON feature payload plays no role in
containment; a zone is identified by its position in `allZones`, which models
JavaScript reference identity of the pushed `zone.feature` objects. -/
structure Zone where
  latLngs : List (List (List LatLng))
deriving DecidableEq

/-- `L.polygon(polygonCoords).getBounds().contains(clickPoint)`
(`visualizer.js` 1395-1396): the bounding box spans all vertices of all rings
of the polygon, containment is inclusive, and an empty vertex set contains
nothing. -/
def boundsContains (pts : List LatLng) (p : LatLng) : Bool :=
  match (pts.map LatLng.lat).min?, (pts.map LatLng.lat).max?,
      (pts.map LatLng.lng).min?, (pts.map LatLng.lng).max? with
  | some a, some b, some c, some d =>
    decide (a ≤ p.lat ∧ p.lat ≤ b ∧ c ≤ p.lng ∧ p.lng ≤ d)
  | _, _, _, _ => false

/-- The per-polygon containment test of the click handler (`visualizer.js`
1393-1402): cheap bounding-box reject, then precise ray casting against the
outer ring `polygonCoords[0]`. -/
def polygonMatches (p : LatLng) (polygonCoords : List (List LatLng)) : Bool :=
  boundsContains polygonCoords.flatten p && isPointInPolygon p (polygonCoords.headD [])

/-- A zone contains the click point when any of its polygons matches. -/
def zoneContainsPoint (z : Zone) (p : LatLng) : Bool :=
  z.latLngs.any (polygonMatches p)

/-- The `overlappingZones` array built by the click handler (`visualizer.js`
1389-1404): zones are scanned in load order and the zone (represented by its
index, standing for the pushed `zone.feature` reference) is pushed once per
matching polygon, so a zone may occur several times before deduplication. -/
def overlappingZoneIdxs (p : LatLng) (allZones : List Zone) : List ℕ :=
  allZones.enum.flatMap fun zi =>
    zi.2.latLngs.flatMap fun polygonCoords =>
      if polygonMatches p polygonCoords then [zi.1] else []

/-- The deduplication step
`filter((zone, index, self) => index === self.findIndex(z => z === zone))`
(`visualizer.js` 1407-1409): an element is kept exactly when its position is
the first occurrence of its value. -/
def keepFirstOccurrence (l : List ℕ) : List ℕ :=
  (l.enum.filter fun iz => l.indexOf iz.2 == iz.1).map Prod.snd

/-- The full overlap resolution for one click: scan, then deduplicate. -/
def findZonesContaining (p : LatLng) (allZones : List Zone) : List ℕ :=
  keepFirstOccurrence (overlappingZoneIdxs p allZones)

/-- Deduplication yields a sublist of its input. -/
theorem keepFirstOccurrence_sublist (l : List ℕ) :
    (keepFirstOccurrence l).Sublist l := by
  have h := (List.filter_sublist (p := fun iz => l.indexOf iz.2 == iz.1) l.enum).map Prod.snd
  rwa [List.enum_map_snd] at h

/-- Deduplication preserves membership: the first occurrence of any element
of the input survives the filter. -/
theorem mem_keepFirstOccurrence {a : ℕ} {l : List ℕ} :
    a ∈ keepFirstOccurrence l ↔ a ∈ l := by
  constructor
  · exact fun h => (keepFirstOccurrence_sublist l).mem h
  · intro h
    unfold keepFirstOccurrence
    refine List.mem_map.mpr ⟨(l.indexOf a, a), ?_, rfl⟩
    refine List.mem_filter.mpr ⟨?_, by simp⟩
    exact List.mk_mem_enum_iff_getElem?.mpr (List.getElem?_indexOf h)

/-- The positions of the enumerated input are strictly increasing. -/
theorem enum_pairwise_fst_lt {α : Type} (l : List α) :
    l.enum.Pairwise fun x y => x.1 < y.1 := by
  have h : (l.enum.map Prod.fst).Pairwise (· < ·) := by
    rw [List.enum_map_fst]; exact List.pairwise_lt_range _
  exact List.pairwise_map.mp h

/-- Deduplication produces a duplicate-free list: two kept entries at
distinct positions are both first occurrences of their values, so the values
differ. -/
theorem nodup_keepFirstOccurrence (l : List ℕ) :
    (keepFirstOccurrence l).Nodup := by
  unfold keepFirstOccurrence
  rw [List.Nodup, List.pairwise_map]
  have hfst : (l.enum.filter fun iz => l.indexOf iz.2 == iz.1).Pairwise
      fun x y => x.1 < y.1 :=
    List.Pairwise.sublist (List.filter_sublist _) (enum_pairwise_fst_lt l)
  refine hfst.imp_of_mem ?_
  intro x y hx hy hlt heq
  have hxp := List.of_mem_filter hx
  have hyp := List.of_mem_filter hy
  simp only [beq_iff_eq] at hxp hyp
  rw [heq, hyp] at hxp
  omega

/-- Every element contributed by one zone of the scan equals that zone's
index. -/
theorem mem_zone_block {p : LatLng} {zi : ℕ × Zone} {a : ℕ}
    (h : a ∈ zi.2.latLngs.flatMap fun polygonCoords =>
      if polygonMatches p polygonCoords then [zi.1] else []) : a = zi.1 := by
  obtain ⟨pc, _, hmem⟩ := List.mem_flatMap.mp h
  by_cases hm : polygonMatches p pc
  · simpa [hm] using hmem
  · simp [hm] at hmem

/-- The raw overlap scan lists zone indices in nondecreasing order. -/
theorem overlappingZoneIdxs_pairwise_le (p : LatLng) (allZones : List Zone) :
    (overlappingZoneIdxs p allZones).Pairwise (· ≤ ·) := by
  unfold overlappingZoneIdxs
  rw [List.flatMap_def, List.pairwise_flatten]
  constructor
  · intro l hl
    obtain ⟨zi, _, rfl⟩ := List.mem_map.mp hl
    refine List.pairwise_of_forall_mem_list ?_
    intro a ha b hb
    rw [mem_zone_block ha, mem_zone_block hb]
  · rw [List.pairwise_map]
    refine (enum_pairwise_fst_lt allZones).imp ?_
    intro x y hlt a ha b hb
    rw [mem_zone_block ha, mem_zone_block hb]
    exact hlt.le

/-- Characterisation of the raw scan: an index occurs exactly when it refers
to a zone that contains the point. -/
theorem mem_overlappingZoneIdxs {p : LatLng} {allZones : List Zone} {i : ℕ} :
    i ∈ overlappingZoneIdxs p allZones ↔
      ∃ z, allZones[i]? = some z ∧ zoneContainsPoint z p = true := by
  unfold overlappingZoneIdxs
  rw [List.mem_flatMap]
  constructor
  · rintro ⟨zi, hzi, hblock⟩
    obtain ⟨pc, hpc, hone⟩ := List.mem_flatMap.mp hblock
    by_cases hm : polygonMatches p pc
    · refine ⟨zi.2, ?_, List.any_eq_true.mpr ⟨pc, hpc, hm⟩⟩
      have : i = zi.1 := by simpa [hm] using hone
      subst this
      exact List.mk_mem_enum_iff_getElem?.mp hzi
    · simp [hm] at hone
  · rintro ⟨z, hz, hcont⟩
    obtain ⟨pc, hpc, hm⟩ := List.any_eq_true.mp hcont
    exact ⟨(i, z), List.mk_mem_enum_iff_getElem?.mpr hz,
      List.mem_flatMap.mpr ⟨pc, hpc, by simp [hm]⟩⟩

/-- C3: zone-containment resolution returns each containing zone at most
once (deduplicated by zone identity, i.e. by position in the loaded zone
list), the returned sequence is strictly increasing in load order, and an
index is returned exactly when its zone contains the click point. -/
theorem claim_C3 (p : LatLng) (allZones : List Zone) :
    (findZonesContaining p allZones).Nodup ∧
    (findZonesContaining p allZones).Pairwise (· < ·) ∧
    ∀ i : ℕ, i ∈ findZonesContaining p allZones ↔
      ∃ z, allZones[i]? = some z ∧ zoneContainsPoint z p = true := by
  have hnd := nodup_keepFirstOccurrence (overlappingZoneIdxs p allZones)
  have hle : (findZonesContaining p allZones).Pairwise (· ≤ ·) :=
    List.Pairwise.sublist (keepFirstOccurrence_sublist _)
      (overlappingZoneIdxs_pairwise_le p allZones)
  refine ⟨hnd, ?_, ?_⟩
  · exact (hle.and hnd).imp fun h => lt_of_le_of_ne h.1 h.2
  · intro i
    rw [findZonesContaining, mem_keepFirstOccurrence, mem_overlappingZoneIdxs]

/-- Witness for C3: a single square zone and a click point inside it. -/
theorem claim_C3_witness :
    (findZonesContaining ⟨1, 1⟩
      [⟨[[[⟨0, 0⟩, ⟨4, 0⟩, ⟨4, 4⟩, ⟨0, 4⟩]]]⟩]).Nodup ∧
    (findZonesContaining ⟨1, 1⟩
      [⟨[[[⟨0, 0⟩, ⟨4, 0⟩, ⟨4, 4⟩, ⟨0, 4⟩]]]⟩]).Pairwise (· < ·) ∧
    ∀ i : ℕ, i ∈ findZonesContaining ⟨1, 1⟩
        [⟨[[[⟨0, 0⟩, ⟨4, 0⟩, ⟨4, 4⟩, ⟨0, 4⟩]]]⟩] ↔
      ∃ z, [(⟨[[[⟨0, 0⟩, ⟨4, 0⟩, ⟨4, 4⟩, ⟨0, 4⟩]]]⟩ : Zone)][i]? = some z ∧
        zoneContainsPoint z ⟨1, 1⟩ = true :=
  claim_C3 ⟨1, 1⟩ [⟨[[[⟨0, 0⟩, ⟨4, 0⟩, ⟨4, 4⟩, ⟨0, 4⟩]]]⟩]

/-- C4: for every point and every ring with fewer than 3 points the
point-in-polygon test returns `false` (the loop is total, so no exception is
possible), and consequently a zone all of whose polygons have such degenerate
outer rings is treated as non-matching by the containment resolution. -/
theorem claim_C4 (p : LatLng) (ring : List LatLng) (z : Zone)
    (hring : ring.length < 3)
    (hz : ∀ poly ∈ z.latLngs, (poly.headD []).length < 3) :
    isPointInPolygon p ring = false ∧ zoneContainsPoint z p = false := by
  refine ⟨isPointInPolygon_of_short p ring hring, ?_⟩
  unfold zoneContainsPoint
  rw [List.any_eq_false]
  intro poly hpoly
  unfold polygonMatches
  rw [isPointInPolygon_of_short p _ (hz poly hpoly), Bool.and_false]
  simp

/-- Witness for C4: a two-point ring and a zone consisting of a single
polygon with that degenerate outer ring. -/
theorem claim_C4_witness :
    isPointInPolygon ⟨1, 1⟩ [⟨0, 0⟩, ⟨2, 2⟩] = false ∧
    zoneContainsPoint ⟨[[[⟨0, 0⟩, ⟨2, 2⟩]]]⟩ ⟨1, 1⟩ = false :=
  claim_C4 ⟨1, 1⟩ [⟨0, 0⟩, ⟨2, 2⟩] ⟨[[[⟨0, 0⟩, ⟨2, 2⟩]]]⟩ (by decide)
    (by intro poly hpoly; simp at hpoly; simp [hpoly])

/-- A geofencing zone rule as read by `analyzeVehicleTypePrecedence` and the
popup builders: `vehicle_type_ids` distinguishes an absent field from a
present (possibly empty) array, matching the JavaScript truthiness test. -/
structure ZoneRule where
  vehicle_type_ids : Option (List String)
  ride_start_allowed : Bool
  ride_end_allowed : Bool
  ride_through_allowed : Bool
  station_parking : Option Bool
  maximum_speed_kph : Option ℚ
deriving DecidableEq

/-- A zone feature as consumed by `analyzeVehicleTypePrecedence`: `name`
models the chain `feature.properties.name?.[0]?.text` (present exactly when
it yields a non-empty string), and `rules` models `feature.properties.rules`
with a missing array identified with the empty list — the guard
`if (!feature.properties.rules) return;` and an empty array iterate
identically. -/
structure ZoneFeature where
  name : Option String
  rules : List ZoneRule
deriving DecidableEq

/-- The vehicle-type key set of one rule (`visualizer.js` 1223-1225):
`rule.vehicle_type_ids` when present and non-empty, otherwise the universal
wildcard key. -/
def ruleVehicleTypeKeys (rule : ZoneRule) : List String :=
  match rule.vehicle_type_ids with
  | some ids => if ids.length > 0 then ids else ["*"]
  | none => ["*"]

/-- One entry pushed into a per-vehicle-type rule list
(`visualizer.js` 1232-1238). -/
structure PrecedenceEntry where
  zoneIndex : ℕ
  ruleIndex : ℕ
  zoneName : String
  rule : ZoneRule
  precedenceScore : ℕ
deriving DecidableEq

/-- The display name recorded with an entry (`visualizer.js` 1235): the
feature name, falling back to a positional label. -/
def zoneNameOf (feature : ZoneFeature) (zoneIndex : ℕ) : String :=
  feature.name.getD ("Zone " ++ toString (zoneIndex + 1))

/-- The collection phase of `analyzeVehicleTypePrecedence`
(`visualizer.js` 1219-1241), viewed at one vehicle-type key: iterating zones
and their rules in order, a rule contributes an entry under key `vt` exactly
when `vt` is among its vehicle-type keys; the entry records the zone index,
rule index, zone name, the rule, and the precedence score
`zoneIndex * 1000 + ruleIndex`. -/
def collectEntries (features : List ZoneFeature) (vt : String) : List PrecedenceEntry :=
  features.enum.flatMap fun fz =>
    fz.2.rules.enum.flatMap fun rr =>
      if vt ∈ ruleVehicleTypeKeys rr.2 then
        [{ zoneIndex := fz.1, ruleIndex := rr.1, zoneName := zoneNameOf fz.2 fz.1,
           rule := rr.2, precedenceScore := fz.1 * 1000 + rr.1 }]
      else []

/-- Insertion into a list sorted by ascending precedence score. -/
def insertByScore (e : PrecedenceEntry) : List PrecedenceEntry → List PrecedenceEntry
  | [] => [e]
  | f :: t =>
    if e.precedenceScore ≤ f.precedenceScore then e :: f :: t
    else f :: insertByScore e t

/-- The per-key sort
`rules.sort((a, b) => a.precedenceScore - b.precedenceScore)`
(`visualizer.js` 1244-1246), realised as an insertion sort — any comparison
sort yields a list that is nondecreasing in the score. -/
def sortByScore : List PrecedenceEntry → List PrecedenceEntry
  | [] => []
  | e :: t => insertByScore e (sortByScore t)

/-- `analyzeVehicleTypePrecedence(features)` (`visualizer.js` 1215-1249),
viewed as the function taking a vehicle-type key to that key's rule list in
the returned Map (`[]` for a key that is absent). -/
def analyzeVehicleTypePrecedence (features : List ZoneFeature) (vt : String) :
    List PrecedenceEntry :=
  sortByScore (collectEntries features vt)

/-- Insertion preserves the element set. -/
theorem mem_insertByScore {a e : PrecedenceEntry} {l : List PrecedenceEntry} :
    a ∈ insertByScore e l ↔ a = e ∨ a ∈ l := by
  induction l with
  | nil => simp [insertByScore]
  | cons f t ih =>
    by_cases h : e.precedenceScore ≤ f.precedenceScore
    · simp [insertByScore, h]
    · simp [insertByScore, h, ih]
      tauto

/-- Sorting preserves the element set. -/
theorem mem_sortByScore {a : PrecedenceEntry} {l : List PrecedenceEntry} :
    a ∈ sortByScore l ↔ a ∈ l := by
  induction l with
  | nil => simp [sortByScore]
  | cons e t ih => simp [sortByScore, mem_insertByScore, ih]

/-- Insertion into a score-sorted list keeps it score-sorted. -/
theorem pairwise_insertByScore {e : PrecedenceEntry} {l : List PrecedenceEntry}
    (h : l.Pairwise fun a b => a.precedenceScore ≤ b.precedenceScore) :
    (insertByScore e l).Pairwise fun a b => a.precedenceScore ≤ b.precedenceScore := by
  induction l with
  | nil => simp [insertByScore]
  | cons f t ih =>
    rw [List.pairwise_cons] at h
    by_cases hle : e.precedenceScore ≤ f.precedenceScore
    · rw [insertByScore, if_pos hle]
      refine List.pairwise_cons.mpr ⟨?_, List.pairwise_cons.mpr h⟩
      intro a ha
      rcases List.mem_cons.mp ha with rfl | ha
      · exact hle
      · exact hle.trans (h.1 a ha)
    · rw [insertByScore, if_neg hle]
      refine List.pairwise_cons.mpr ⟨?_, ih h.2⟩
      intro a ha
      rcases mem_insertByScore.mp ha with rfl | ha
      · omega
      · exact h.1 a ha

/-- The sort phase always yields a list nondecreasing in precedence score. -/
theorem pairwise_sortByScore (l : List PrecedenceEntry) :
    (sortByScore l).Pairwise fun a b => a.precedenceScore ≤ b.precedenceScore := by
  induction l with
  | nil => simp [sortByScore]
  | cons e t ih => exact pairwise_insertByScore ih

/-- Characterisation of the collection phase: an entry is collected for key
`vt` exactly when it is built, field by field, from a rule at some position
`(zi, ri)` whose vehicle-type keys include `vt`. -/
theorem mem_collectEntries {features : List ZoneFeature} {vt : String}
    {e : PrecedenceEntry} :
    e ∈ collectEntries features vt ↔
      ∃ zi f ri r, features[zi]? = some f ∧ f.rules[ri]? = some r ∧
        vt ∈ ruleVehicleTypeKeys r ∧
        e = { zoneIndex := zi, ruleIndex := ri, zoneName := zoneNameOf f zi,
              rule := r, precedenceScore := zi * 1000 + ri } := by
  unfold collectEntries
  rw [List.mem_flatMap]
  constructor
  · rintro ⟨fz, hfz, hblock⟩
    obtain ⟨rr, hrr, hone⟩ := List.mem_flatMap.mp hblock
    by_cases hm : vt ∈ ruleVehicleTypeKeys rr.2
    · refine ⟨fz.1, fz.2, rr.1, rr.2,
        List.mk_mem_enum_iff_getElem?.mp hfz,
        List.mk_mem_enum_iff_getElem?.mp hrr, hm, ?_⟩
      simpa [hm] using hone
    · simp [hm] at hone
  · rintro ⟨zi, f, ri, r, hf, hr, hm, rfl⟩
    exact ⟨(zi, f), List.mk_mem_enum_iff_getElem?.mpr hf,
      List.mem_flatMap.mpr ⟨(ri, r), List.mk_mem_enum_iff_getElem?.mpr hr,
        by simp [hm]⟩⟩

/-- C1: every collected rule carries the precedence score
`zoneIndex * 1000 + ruleIndexWithinZone` computed from its actual position in
the input, and every vehicle-type key's rule list is nondecreasing in that
score, so its first element attains the minimum score for that key. -/
theorem claim_C1 (features : List ZoneFeature) (vt : String) :
    (analyzeVehicleTypePrecedence features vt).Pairwise
      (fun a b => a.precedenceScore ≤ b.precedenceScore) ∧
    (∀ e ∈ analyzeVehicleTypePrecedence features vt,
      e.precedenceScore = e.zoneIndex * 1000 + e.ruleIndex ∧
      ∃ f, features[e.zoneIndex]? = some f ∧ f.rules[e.ruleIndex]? = some e.rule) ∧
    (∀ h e, (analyzeVehicleTypePrecedence features vt).head? = some h →
      e ∈ analyzeVehicleTypePrecedence features vt →
      h.precedenceScore ≤ e.precedenceScore) := by
  refine ⟨pairwise_sortByScore _, ?_, ?_⟩
  · intro e he
    obtain ⟨zi, f, ri, r, hf, hr, _, rfl⟩ :=
      mem_collectEntries.mp (mem_sortByScore.mp he)
    exact ⟨rfl, f, hf, hr⟩
  · intro h e hhead he
    have hp := pairwise_sortByScore (collectEntries features vt)
    cases hl : sortByScore (collectEntries features vt) with
    | nil =>
      rw [analyzeVehicleTypePrecedence, hl] at hhead
      exact absurd hhead (by simp)
    | cons a t =>
      rw [analyzeVehicleTypePrecedence, hl] at hhead he
      obtain rfl : a = h := by simpa using hhead
      rw [hl] at hp
      rcases List.mem_cons.mp he with rfl | he
      · exact le_refl _
      · exact (List.pairwise_cons.mp hp).1 e he

/-- Witness for C1: one zone with a single universal rule, queried at the
wildcard key. -/
theorem claim_C1_witness :
    (analyzeVehicleTypePrecedence
        [{ name := none,
           rules := [{ vehicle_type_ids := none, ride_start_allowed := false,
                       ride_end_allowed := false, ride_through_allowed := false,
                       station_parking := none, maximum_speed_kph := none }] }]
        "*").Pairwise (fun a b => a.precedenceScore ≤ b.precedenceScore) ∧
    (∀ e ∈ analyzeVehicleTypePrecedence
        [{ name := none,
           rules := [{ vehicle_type_ids := none, ride_start_allowed := false,
                       ride_end_allowed := false, ride_through_allowed := false,
                       station_parking := none, maximum_speed_kph := none }] }]
        "*",
      e.precedenceScore = e.zoneIndex * 1000 + e.ruleIndex ∧
      ∃ f, ([{ name := none,
               rules := [{ vehicle_type_ids := none, ride_start_allowed := false,
                           ride_end_allowed := false, ride_through_allowed := false,
                           station_parking := none,
                           maximum_speed_kph := none }] }] :
          List ZoneFeature)[e.zoneIndex]? = some f ∧
        f.rules[e.ruleIndex]? = some e.rule) ∧
    (∀ h e, (analyzeVehicleTypePrecedence
        [{ name := none,
           rules := [{ vehicle_type_ids := none, ride_start_allowed := false,
                       ride_end_allowed := false, ride_through_allowed := false,
                       station_parking := none, maximum_speed_kph := none }] }]
        "*").head? = some h →
      e ∈ analyzeVehicleTypePrecedence
        [{ name := none,
           rules := [{ vehicle_type_ids := none, ride_start_allowed := false,
                       ride_end_allowed := false, ride_through_allowed := false,
                       station_parking := none, maximum_speed_kph := none }] }]
        "*" →
      h.precedenceScore ≤ e.precedenceScore) :=
  claim_C1
    [{ name := none,
       rules := [{ vehicle_type_ids := none, ride_start_allowed := false,
                   ride_end_allowed := false, ride_through_allowed := false,
                   station_parking := none, maximum_speed_kph := none }] }] "*"

/-- C2: a rule at position `(zi, ri)` is registered under key `vt` exactly
when `vt` is among its `vehicle_type_ids` (if present and non-empty) or `vt`
is the universal wildcard key (if the list is absent or empty); in
particular a rule with an empty or absent vehicle-type list is never
registered under any concrete vehicle-type key. -/
theorem claim_C2 (features : List ZoneFeature) (zi ri : ℕ) (f : ZoneFeature)
    (r : ZoneRule) (vt : String)
    (hf : features[zi]? = some f) (hr : f.rules[ri]? = some r) :
    (∃ e ∈ analyzeVehicleTypePrecedence features vt,
        e.zoneIndex = zi ∧ e.ruleIndex = ri ∧ e.rule = r) ↔
      (match r.vehicle_type_ids with
       | some ids => if ids = [] then vt = "*" else vt ∈ ids
       | none => vt = "*") := by
  have hkeys : vt ∈ ruleVehicleTypeKeys r ↔
      (match r.vehicle_type_ids with
       | some ids => if ids = [] then vt = "*" else vt ∈ ids
       | none => vt = "*") := by
    unfold ruleVehicleTypeKeys
    rcases r.vehicle_type_ids with _ | ids
    · simp
    · rcases ids with _ | ⟨a, t⟩ <;> simp
  rw [← hkeys]
  constructor
  · rintro ⟨e, he, hzi, hri, hrule⟩
    obtain ⟨zi', f', ri', r', hf', hr', hm, rfl⟩ :=
      mem_collectEntries.mp (mem_sortByScore.mp he)
    dsimp at hzi hri hrule
    subst hzi; subst hri; subst hrule
    exact hm
  · intro hm
    refine ⟨PrecedenceEntry.mk zi ri (zoneNameOf f zi) r (zi * 1000 + ri),
      ?_, rfl, rfl, rfl⟩
    exact mem_sortByScore.mpr
      (mem_collectEntries.mpr ⟨zi, f, ri, r, hf, hr, hm, rfl⟩)

/-- Witness for C2: a single zone with a single scooter-scoped rule,
queried at the scooter key. -/
theorem claim_C2_witness :
    (∃ e ∈ analyzeVehicleTypePrecedence
        [{ name := none,
           rules := [{ vehicle_type_ids := some ["scooter"],
                       ride_start_allowed := true, ride_end_allowed := true,
                       ride_through_allowed := true, station_parking := none,
                       maximum_speed_kph := none }] }] "scooter",
        e.zoneIndex = 0 ∧ e.ruleIndex = 0 ∧
        e.rule = { vehicle_type_ids := some ["scooter"],
                   ride_start_allowed := true, ride_end_allowed := true,
                   ride_through_allowed := true, station_parking := none,
                   maximum_speed_kph := none }) ↔
      (match (some ["scooter"] : Option (List String)) with
       | some ids => if ids = [] then "scooter" = "*" else "scooter" ∈ ids
       | none => "scooter" = "*") :=
  claim_C2
    [{ name := none,
       rules := [{ vehicle_type_ids := some ["scooter"],
                   ride_start_allowed := true, ride_end_allowed := true,
                   ride_through_allowed := true, station_parking := none,
                   maximum_speed_kph := none }] }] 0 0 _ _ "scooter" rfl rfl

/-- The two display modes of the virtual-station render state machine
(`visualizer.js` 848). -/
inductive DisplayMode
  | centroid
  | polygon
deriving DecidableEq

/-- `performanceSettings.virtualStationZoomThreshold` (`visualizer.js`
843-845). -/
def virtualStationZoomThreshold : ℚ := 14

/-- The mode selected for a zoom level (`visualizer.js` 865):
`currentZoom < performanceSettings.virtualStationZoomThreshold ? centroid : polygon`. -/
def modeForZoom (zoom : ℚ) : DisplayMode :=
  if zoom < virtualStationZoomThreshold then .centroid else .polygon

/-- The state manipulated by the debounced `zoomend` handler
(`visualizer.js` 847-871): the last display mode acted upon
(`currentVirtualDisplayMode`, initially `null`), the scheduled expiry of the
pending debounce timer (`zoomDebounceTimeout`), and the map zoom that
`map.getZoom()` would report. -/
structure ZoomSimState where
  currentVirtualDisplayMode : Option DisplayMode
  pendingFireTime : Option ℚ
  currentZoom : ℚ
deriving DecidableEq

/-- The body of the debounce timer callback (`visualizer.js` 859-870): read
the zoom, derive the mode and, only when the mode changed, record it and call
`refreshVirtualStationDisplay` — the returned list collects the mode current
at each such re-render call. -/
def fireDebounce (s : ZoomSimState) : ZoomSimState × List DisplayMode :=
  let newDisplayMode := modeForZoom s.currentZoom
  if s.currentVirtualDisplayMode ≠ some newDisplayMode then
    ({ s with currentVirtualDisplayMode := some newDisplayMode,
              pendingFireTime := none }, [newDisplayMode])
  else
    ({ s with pendingFireTime := none }, [])

/-- Handling of one `zoomend` event at time `t` with new zoom `z`
(`visualizer.js` 852-871): a pending timer that would already have expired
fires first; then `clearTimeout` discards any pending timer and a fresh one
is scheduled 150 ms ahead. -/
def stepZoomEnd (s : ZoomSimState) (t z : ℚ) : ZoomSimState × List DisplayMode :=
  match s.pendingFireTime with
  | some ft =>
    if ft ≤ t then
      let fired := fireDebounce s
      ({ fired.1 with currentZoom := z, pendingFireTime := some (t + 150) },
       fired.2)
    else
      ({ s with currentZoom := z, pendingFireTime := some (t + 150) }, [])
  | none => ({ s with currentZoom := z, pendingFireTime := some (t + 150) }, [])

/-- Run a time-ordered list of `zoomend` events and finally let any pending
timer expire; the second component is the sequence of re-render calls. -/
def runZoomEvents (s : ZoomSimState) : List (ℚ × ℚ) → ZoomSimState × List DisplayMode
  | [] =>
    match s.pendingFireTime with
    | some _ => fireDebounce s
    | none => (s, [])
  | (t, z) :: rest =>
    let stepped := stepZoomEnd s t z
    let tail := runZoomEvents stepped.1 rest
    (tail.1, stepped.2 ++ tail.2)

/-- C5: the zoom sequence 16, 13, 16 within one debounce quiet period (all
three events within 150 ms of the first) triggers exactly one re-render
call, and that call sees the final zoom 16, i.e. POLYGON mode. -/
theorem claim_C5 (t1 t2 t3 z0 : ℚ) (h12 : t1 ≤ t2) (h23 : t2 ≤ t3)
    (hwin : t3 < t1 + 150) :
    (runZoomEvents ⟨none, none, z0⟩ [(t1, 16), (t2, 13), (t3, 16)]).2 =
      [DisplayMode.polygon] ∧
    modeForZoom 16 = DisplayMode.polygon := by
  have h2 : ¬ (t1 + 150 ≤ t2) := by linarith
  have h3 : ¬ (t2 + 150 ≤ t3) := by linarith
  constructor
  · simp only [runZoomEvents, stepZoomEnd, if_neg h2, if_neg h3]
    simp [fireDebounce, modeForZoom, virtualStationZoomThreshold]
    norm_num
  · simp [modeForZoom, virtualStationZoomThreshold]
    norm_num

/-- Witness for C5 at event times 0, 60, 120. -/
theorem claim_C5_witness :
    (runZoomEvents ⟨none, none, 10⟩ [(0, 16), (60, 13), (120, 16)]).2 =
      [DisplayMode.polygon] ∧
    modeForZoom 16 = DisplayMode.polygon :=
  claim_C5 0 60 120 10 (by norm_num) (by norm_num) (by norm_num)

/-- The station-record fields consumed by the virtual-station pipeline:
`name` models `station.name[0].text` and `station_area` the GeoJSON
MultiPolygon coordinate array `station.station_area.coordinates`
(entries in `(lng, lat)` order). -/
structure StationInfo where
  station_id : String
  name : String
  capacity : Option ℕ
  address : Option String
  is_virtual_station : Bool
  station_area : Option (List (List (List (ℚ × ℚ))))
deriving DecidableEq

/-- The status-record fields consumed by the virtual-station popup. -/
structure StationStatus where
  num_vehicles_available : Option ℕ
  num_docks_available : Option ℕ
  is_installed : Option Bool
deriving DecidableEq

/-- `createVirtualStationPopup(station, status)` (`visualizer.js` 944-1021)
over the modelled fields.  The trailing pricing block (970-1017) reads the
globally loaded vehicle-type and pricing feeds, which are fixed across the
mode switches this development reasons about, so it contributes a string
that is constant per station and per load and is not spelled out here. -/
def createVirtualStationPopup (station : StationInfo)
    (status : Option StationStatus) : String :=
  let base := "<div class=\"popup-content\">" ++ "<h4>" ++ station.name ++
    "</h4>" ++ "<div><strong>ID:</strong> " ++ station.station_id ++
    "</div>" ++ "<div><strong>Type:</strong> Virtual Station (Area)</div>"
  let capPart :=
    match station.capacity with
    | some c => "<div><strong>Capacity:</strong> " ++ toString c ++ "</div>"
    | none => ""
  let statusPart :=
    match status with
    | some st =>
      (match st.num_vehicles_available with
       | some n => "<div><strong>Vehicles Available:</strong> " ++ toString n ++ "</div>"
       | none => "") ++
      (match st.num_docks_available with
       | some n => "<div><strong>Docks Available:</strong> " ++ toString n ++ "</div>"
       | none => "") ++
      (match st.is_installed with
       | some b => "<div><strong>Status:</strong> " ++
           (if b then "Installed" else "Not Installed") ++ "</div>"
       | none => "")
    | none => ""
  let addrPart :=
    match station.address with
    | some a => "<div><strong>Address:</strong> " ++ a ++ "</div>"
    | none => ""
  base ++ capPart ++ statusPart ++ addrPart ++ "</div>"

/-- The derived data cached per virtual station in `stationItem._cachedData`
(`visualizer.js` 896-906): popup content string, centroid point, and the
Leaflet-format reprojected vertex lists. -/
structure CachedData where
  popupContent : String
  centroid : ℚ × ℚ
  latLngs : List (List (List LatLng))
deriving DecidableEq

/-- A rendered map element: a centroid marker or a polygon area shape, each
carrying its bound popup content. -/
inductive MapElement
  | marker (pos : ℚ × ℚ) (popup : String)
  | polygonArea (latLngs : List (List (List LatLng))) (popup : String)
deriving DecidableEq

/-- One entry of `stationData`: the station record, its latest status, the
lazily initialised `_cachedData`, and the currently attached map element. -/
structure StationItem where
  station : StationInfo
  status : Option StationStatus
  cachedData : Option CachedData
  marker : Option MapElement
deriving DecidableEq

/-- The one-time computation stored into `_cachedData`
(`visualizer.js` 897-905). -/
def computeCachedData (station : StationInfo)
    (status : Option StationStatus) : CachedData :=
  { popupContent := createVirtualStationPopup station status,
    centroid := calculatePolygonCentroid (station.station_area.getD []),
    latLngs := (station.station_area.getD []).map fun polygon =>
      polygon.map fun ring => ring.map fun coord => LatLng.mk coord.2 coord.1 }

/-- `if (!stationItem._cachedData) stationItem._cachedData = ...`
(`visualizer.js` 896-906): reuse the stored object when present, otherwise
compute and store it; the second component is the cache the refresh goes on
to use. -/
def ensureCachedData (item : StationItem) : StationItem × CachedData :=
  match item.cachedData with
  | some c => (item, c)
  | none =>
    let c := computeCachedData item.station item.status
    ({ item with cachedData := some c }, c)

/-- The per-item body of `refreshVirtualStationDisplay`
(`visualizer.js` 888-939): detach the current element, compute-or-reuse the
cache, build the element for the target mode, bind the cached popup and store
the new element reference. -/
def refreshVirtualStationItem (currentZoom : ℚ) (item : StationItem) : StationItem :=
  let ec := ensureCachedData item
  let newMapElement :=
    if currentZoom < virtualStationZoomThreshold then
      MapElement.marker ec.2.centroid ec.2.popupContent
    else
      MapElement.polygonArea ec.2.latLngs ec.2.popupContent
  { ec.1 with marker := some newMapElement }

/-- `refreshVirtualStationDisplay` over the whole `stationData` array
(`visualizer.js` 874-941): only virtual stations possessing an area are
processed; all other items are untouched. -/
def refreshVirtualStationDisplay (currentZoom : ℚ)
    (stationData : List StationItem) : List StationItem :=
  stationData.map fun item =>
    if item.station.is_virtual_station && item.station.station_area.isSome then
      refreshVirtualStationItem currentZoom item
    else item

/-- C6: for a station item starting a load without cached data, the first
mode-switch refresh computes and stores the derived data once; a second
refresh (at any zoom) finds the stored object, returns it without
recomputation, and leaves the identical cached value in place. -/
theorem claim_C6 (zoom1 zoom2 : ℚ) (item : StationItem)
    (hc : item.cachedData = none) :
    (refreshVirtualStationItem zoom1 item).cachedData =
      some (computeCachedData item.station item.status) ∧
    ensureCachedData (refreshVirtualStationItem zoom1 item) =
      (refreshVirtualStationItem zoom1 item,
        computeCachedData item.station item.status) ∧
    (refreshVirtualStationItem zoom2
        (refreshVirtualStationItem zoom1 item)).cachedData =
      (refreshVirtualStationItem zoom1 item).cachedData := by
  have hsome : ∀ (x : StationItem) (c : CachedData), x.cachedData = some c →
      ensureCachedData x = (x, c) := by
    intro x c h
    unfold ensureCachedData
    rw [h]
  have h1 : (refreshVirtualStationItem zoom1 item).cachedData =
      some (computeCachedData item.station item.status) := by
    simp [refreshVirtualStationItem, ensureCachedData, hc]
  refine ⟨h1, hsome _ _ h1, ?_⟩
  rw [refreshVirtualStationItem, hsome _ _ h1]

/-- Witness for C6: a fresh virtual-station item refreshed at zoom 16 and
then at zoom 13. -/
theorem claim_C6_witness :
    (refreshVirtualStationItem 16
        ⟨⟨"s1", "Station One", none, none, true,
          some [[[(0, 0), (2, 0), (2, 2), (0, 2)]]]⟩,
         none, none, none⟩).cachedData =
      some (computeCachedData
        ⟨"s1", "Station One", none, none, true,
          some [[[(0, 0), (2, 0), (2, 2), (0, 2)]]]⟩ none) ∧
    ensureCachedData (refreshVirtualStationItem 16
        ⟨⟨"s1", "Station One", none, none, true,
          some [[[(0, 0), (2, 0), (2, 2), (0, 2)]]]⟩,
         none, none, none⟩) =
      (refreshVirtualStationItem 16
        ⟨⟨"s1", "Station One", none, none, true,
          some [[[(0, 0), (2, 0), (2, 2), (0, 2)]]]⟩,
         none, none, none⟩,
       computeCachedData
        ⟨"s1", "Station One", none, none, true,
          some [[[(0, 0), (2, 0), (2, 2), (0, 2)]]]⟩ none) ∧
    (refreshVirtualStationItem 13 (refreshVirtualStationItem 16
        ⟨⟨"s1", "Station One", none, none, true,
          some [[[(0, 0), (2, 0), (2, 2), (0, 2)]]]⟩,
         none, none, none⟩)).cachedData =
      (refreshVirtualStationItem 16
        ⟨⟨"s1", "Station One", none, none, true,
          some [[[(0, 0), (2, 0), (2, 2), (0, 2)]]]⟩,
         none, none, none⟩).cachedData :=
  claim_C6 16 13 _ rfl

/-- The session-scoped render state of the visualizer: the data arrays
reset by `loadGBFSSystem` (`visualizer.js` 1112-1117, 2211-2216) together
with the map layers built from them; vehicle markers are kept abstract. -/
structure VisualizerState where
  allZones : List Zone
  stationData : List StationItem
  vehicleLayer : List MapElement
deriving DecidableEq

/-- The state produced by the teardown at the start of `loadGBFSSystem`
(`visualizer.js` 2202-2216): every layer emptied and every data array
reset. -/
def clearedVisualizerState : VisualizerState :=
  { allZones := [], stationData := [], vehicleLayer := [] }

/-- A parsed GBFS discovery payload.  `gbfsLoader.loadGBFS`
(`gbfs-loader.js` 73-104) throws `Invalid GBFS discovery file format` on a
document failing its shape check, modelled by `none`; a `some` value carries
the feed contents a successful load goes on to render. -/
structure GBFSDiscovery where
  zones : List Zone
  stations : List StationItem
  vehicles : List MapElement
deriving DecidableEq

/-- `loadGBFSSystem(data)` (`visualizer.js` 2194-2326): the layers and data
arrays are cleared first (2202-2216) and only then is the discovery document
loaded; a throwing load lands in the catch block (2320-2325), which surfaces
the error message and leaves the already-cleared state in place.  The first
component is the resulting render state, the second the surfaced error. -/
def loadGBFSSystem (prior : VisualizerState) (input : Option GBFSDiscovery) :
    VisualizerState × Option String :=
  let _cleared := clearedVisualizerState
  match input with
  | none => (_cleared, some "Invalid GBFS discovery file format")
  | some d =>
    ({ allZones := d.zones, stationData := d.stations,
       vehicleLayer := d.vehicles }, none)

/-- C9 counterexample: a failed load does not leave the prior render state
untouched — starting from a state with one rendered zone, a failing load
returns the empty state, which differs from the prior one. -/
theorem claim_C9_counterexample :
    (loadGBFSSystem
        ⟨[⟨[[[⟨0, 0⟩, ⟨1, 0⟩, ⟨1, 1⟩]]]⟩], [], []⟩ none).1 ≠
      ⟨[⟨[[[⟨0, 0⟩, ⟨1, 0⟩, ⟨1, 1⟩]]]⟩], [], []⟩ := by
  simp [loadGBFSSystem, clearedVisualizerState]

/-- C9 (amended): on a systemic load failure the prior render state is not
preserved — `loadGBFSSystem` tears down all layers and data arrays before
attempting the load, so a failed load leaves the map empty, with the error
surfaced, until a later successful load repopulates it. -/
theorem claim_C9 (prior : VisualizerState) (input : Option GBFSDiscovery)
    (hfail : input = none) :
    (loadGBFSSystem prior input).1 = clearedVisualizerState ∧
    (loadGBFSSystem prior input).2 = some "Invalid GBFS discovery file format" ∧
    clearedVisualizerState.allZones = [] ∧
    clearedVisualizerState.stationData = [] ∧
    clearedVisualizerState.vehicleLayer = [] := by
  subst hfail
  exact ⟨rfl, rfl, rfl, rfl, rfl⟩

/-- Witness for C9 (amended) at a concrete nonempty prior state. -/
theorem claim_C9_witness :
    (loadGBFSSystem ⟨[⟨[]⟩], [], []⟩ none).1 = clearedVisualizerState ∧
    (loadGBFSSystem ⟨[⟨[]⟩], [], []⟩ none).2 =
      some "Invalid GBFS discovery file format" ∧
    clearedVisualizerState.allZones = [] ∧
    clearedVisualizerState.stationData = [] ∧
    clearedVisualizerState.vehicleLayer = [] :=
  claim_C9 ⟨[⟨[]⟩], [], []⟩ none rfl

/-- Twice the signed area of the triangle `(o, a, b)` in the `(lat, lng)`
plane the ray caster works in. -/
def cross (o a b : LatLng) : ℚ :=
  (a.lat - o.lat) * (b.lng - o.lng) - (a.lng - o.lng) * (b.lat - o.lat)

theorem cross_cyclic (a b c : LatLng) : cross a b c = cross b c a := by
  unfold cross; ring

theorem cross_swap (a b c : LatLng) : cross a b c = -cross a c b := by
  unfold cross; ring

/-- Vertices listed in strictly convex counterclockwise position: every
triple taken in index order turns left.  (Bounded quantifiers keep the
predicate decidable on concrete rings.) -/
def ConvexCCW (v : ℕ → LatLng) (n : ℕ) : Prop :=
  ∀ k, k < n → ∀ j, j < k → ∀ i, i < j → 0 < cross (v i) (v j) (v k)

/-- Vertices listed in strictly convex clockwise position. -/
def ConvexCW (v : ℕ → LatLng) (n : ℕ) : Prop :=
  ∀ k, k < n → ∀ j, j < k → ∀ i, i < j → cross (v i) (v j) (v k) < 0

/-- The point lies strictly on the left of every directed edge of a
counterclockwise ring — the standard characterisation of the open interior
of a convex polygon. -/
def InsideCCW (v : ℕ → LatLng) (n : ℕ) (p : LatLng) : Prop :=
  ∀ i, i < n → 0 < cross (v i) (v ((i + 1) % n)) p

/-- The point lies strictly on the right of every directed edge of a
clockwise ring. -/
def InsideCW (v : ℕ → LatLng) (n : ℕ) (p : LatLng) : Prop :=
  ∀ i, i < n → cross (v i) (v ((i + 1) % n)) p < 0

/-- Reflection that negates the latitude; it flips orientation while leaving
every longitude (the coordinate the ray caster scans by) unchanged. -/
def mirrorPt (q : LatLng) : LatLng := ⟨-q.lat, q.lng⟩

theorem cross_mirrorPt (a b c : LatLng) :
    cross (mirrorPt a) (mirrorPt b) (mirrorPt c) = -cross a b c := by
  simp only [cross, mirrorPt]
  ring

/-- No point with a strictly smaller longitude can lie in the left wedge at
a longitude-minimal vertex: pure sign algebra on the two adjacent edge
vectors `u`, `w` and the offset `r`. -/
theorem wedge_min (ux uy wx wy rx ry : ℚ) (huy : uy ≤ 0) (hwy : 0 ≤ wy)
    (hry : ry < 0) (hcr : 0 < ux * wy - uy * wx)
    (h1 : 0 < ux * ry - uy * rx) (h2 : 0 < wx * ry - wy * rx) : False := by
  nlinarith [mul_nonneg hwy h1.le, mul_nonneg (neg_nonneg.mpr huy) h2.le,
    mul_pos (neg_pos.mpr hry) hcr]

/-- Mirror statement of `wedge_min` at a longitude-maximal vertex. -/
theorem wedge_max (ux uy wx wy rx ry : ℚ) (huy : 0 ≤ uy) (hwy : wy ≤ 0)
    (hry : 0 ≤ ry) (hcr : 0 < ux * wy - uy * wx)
    (h1 : 0 < ux * ry - uy * rx) (h2 : 0 < wx * ry - wy * rx) : False := by
  rcases eq_or_lt_of_le hry with h | h
  · have hA : ux * ry = 0 := by rw [← h]; ring
    have hB : wx * ry = 0 := by rw [← h]; ring
    have ha : uy * rx < 0 := by linarith
    have hb : wy * rx < 0 := by linarith
    nlinarith [mul_pos_of_neg_of_neg ha hb,
      mul_nonneg huy (neg_nonneg.mpr hwy), sq_nonneg rx]
  · nlinarith [mul_pos h hcr, mul_nonneg (neg_nonneg.mpr hwy) h1.le,
      mul_nonneg huy h2.le]

theorem parity_decide_succ (c : ℕ) :
    decide ((c + 1) % 2 = 1) = !decide (c % 2 = 1) := by
  rcases Nat.mod_two_eq_zero_or_one c with h | h <;> simp [Nat.add_mod, h]

/-- Folding a conditional flip over a list computes the exclusive-or of the
initial flag with the parity of the number of satisfied elements. -/
theorem foldl_flip_parity {α : Type} (f : α → Bool) (l : List α) (b : Bool) :
    l.foldl (fun acc i => if f i then !acc else acc) b =
      (b != decide (l.countP f % 2 = 1)) := by
  induction l generalizing b with
  | nil => simp
  | cons a t ih =>
    rw [List.countP_cons]
    cases hf : f a
    · have hstep : (if f a = true then !b else b) = b := by simp [hf]
      rw [List.foldl_cons, hstep, ih]
      simp [hf]
    · have hstep : (if f a = true then !b else b) = !b := by simp [hf]
      rw [List.foldl_cons, hstep, ih]
      simp only [eq_self_iff_true, if_true, parity_decide_succ]
      cases b <;> cases hd : decide (t.countP f % 2 = 1) <;> simp [hd]

/-- The edge condition tested at loop index `i` of `isPointInPolygon`. -/
def edgeCondAt (p : LatLng) (ring : List LatLng) (i : ℕ) : Bool :=
  edgeIntersects p (ring.getD i default)
    (ring.getD (if i = 0 then ring.length - 1 else i - 1) default)

/-- The ray caster returns the parity of the number of loop indices whose
edge condition fires. -/
theorem isPointInPolygon_eq_parity (p : LatLng) (ring : List LatLng) :
    isPointInPolygon p ring =
      decide ((List.range ring.length).countP (edgeCondAt p ring) % 2 = 1) := by
  have h := foldl_flip_parity (edgeCondAt p ring) (List.range ring.length) false
  simp only [Bool.false_bne] at h
  rw [← h]
  rfl

/-- Whether vertex `i` lies strictly above the horizontal line through
longitude `y` (the first factor of the ray-casting edge test). -/
def aboveB (v : ℕ → LatLng) (y : ℚ) (i : ℕ) : Bool := decide ((v i).lng > y)

/-- The cyclic predecessor used by the ray-casting loop. -/
def predIdx (n i : ℕ) : ℕ := if i = 0 then n - 1 else i - 1

/-- Whether the edge entering vertex `i` straddles the horizontal line:
the first conjunct of the ray-casting edge test. -/
def crossingB (v : ℕ → LatLng) (n : ℕ) (y : ℚ) (i : ℕ) : Bool :=
  aboveB v y i != aboveB v y (predIdx n i)

/-- Cyclically adjacent sign changes come in pairs: the number of straddling
edges of any ring is even. -/
theorem crossingB_count_even (v : ℕ → LatLng) (n : ℕ) (y : ℚ) :
    (List.range n).countP (crossingB v n y) % 2 = 0 := by
  rcases n with _ | m
  · simp
  · have h1 : (List.range (m + 1)).countP (crossingB v (m + 1) y) =
        Nat.count (fun i => crossingB v (m + 1) y i = true) (m + 1) := by
      rw [Nat.count]
      refine List.countP_congr ?_
      intro x _
      simp
    rw [h1, Nat.count_eq_card_filter_range]
    set S := (Finset.range (m + 1)).filter
      (fun i => crossingB v (m + 1) y i = true) with hS
    suffices h2 : ((S.card : ℕ) : ZMod 2) = 0 by
      obtain ⟨k, hk⟩ := (ZMod.natCast_zmod_eq_zero_iff_dvd S.card 2).mp h2
      omega
    have hxx : ∀ x : ZMod 2, x + x = 0 := by decide
    have hcf : ((S.card : ℕ) : ZMod 2) =
        ∑ i ∈ Finset.range (m + 1),
          (if crossingB v (m + 1) y i = true then (1 : ZMod 2) else 0) := by
      rw [hS, Finset.card_filter, Nat.cast_sum]
      refine Finset.sum_congr rfl ?_
      intro i _
      by_cases h : crossingB v (m + 1) y i = true <;> simp [h]
    have hterm : ∀ i, (if crossingB v (m + 1) y i = true then (1 : ZMod 2) else 0) =
        (if aboveB v y i = true then (1 : ZMod 2) else 0) +
        (if aboveB v y (predIdx (m + 1) i) = true then (1 : ZMod 2) else 0) := by
      intro i
      unfold crossingB
      cases hx : aboveB v y i <;> cases hy : aboveB v y (predIdx (m + 1) i) <;>
        simp [hx, hy]
      all_goals decide
    rw [hcf]
    calc ∑ i ∈ Finset.range (m + 1),
          (if crossingB v (m + 1) y i = true then (1 : ZMod 2) else 0)
        = ∑ i ∈ Finset.range (m + 1),
            ((if aboveB v y i = true then (1 : ZMod 2) else 0) +
             (if aboveB v y (predIdx (m + 1) i) = true then (1 : ZMod 2) else 0)) :=
          Finset.sum_congr rfl fun i _ => hterm i
      _ = (∑ i ∈ Finset.range (m + 1),
            (if aboveB v y i = true then (1 : ZMod 2) else 0)) +
          (∑ i ∈ Finset.range (m + 1),
            (if aboveB v y (predIdx (m + 1) i) = true then (1 : ZMod 2) else 0)) :=
          Finset.sum_add_distrib
      _ = 0 := by
          have hshift : ∑ i ∈ Finset.range (m + 1),
              (if aboveB v y (predIdx (m + 1) i) = true then (1 : ZMod 2) else 0) =
              ∑ i ∈ Finset.range (m + 1),
                (if aboveB v y i = true then (1 : ZMod 2) else 0) := by
            rw [Finset.sum_range_succ'
              (fun i => if aboveB v y (predIdx (m + 1) i) = true then (1 : ZMod 2) else 0) m,
              Finset.sum_range_succ
              (fun i => if aboveB v y i = true then (1 : ZMod 2) else 0) m]
            have h1 : ∀ i ∈ Finset.range m,
                (if aboveB v y (predIdx (m + 1) (i + 1)) = true then (1 : ZMod 2) else 0) =
                (if aboveB v y i = true then (1 : ZMod 2) else 0) := by
              intro i _
              have hp : predIdx (m + 1) (i + 1) = i := by simp [predIdx]
              rw [hp]
            have hp0 : predIdx (m + 1) 0 = m := by simp [predIdx]
            rw [Finset.sum_congr rfl h1, hp0]
          rw [hshift, hxx]

/-- Along a stretch of the ring free of straddling edges the above/below
status is constant. -/
theorem aboveB_const_of_no_crossing (v : ℕ → LatLng) (n : ℕ) (y : ℚ) {a : ℕ} :
    ∀ b, a ≤ b → b < n →
      (∀ k, a < k → k ≤ b → crossingB v n y k = false) →
      aboveB v y b = aboveB v y a := by
  intro b hab
  induction b, hab using Nat.le_induction with
  | base => intro _ _; rfl
  | succ b hab ih =>
    intro hb h
    have hc : crossingB v n y (b + 1) = false := h (b + 1) (by omega) (le_refl _)
    unfold crossingB at hc
    rw [bne_eq_false_iff_eq] at hc
    have hpred : predIdx n (b + 1) = b := by simp [predIdx]
    rw [hc, hpred, ih (by omega) (fun k h1 h2 => h k h1 (by omega))]

/-- A ring with vertices on both sides of the line has a straddling edge. -/
theorem exists_crossingB (v : ℕ → LatLng) (n : ℕ) (y : ℚ)
    (ha : ∃ i, i < n ∧ aboveB v y i = true)
    (hb : ∃ i, i < n ∧ aboveB v y i = false) :
    ∃ i, i < n ∧ crossingB v n y i = true := by
  by_contra hno
  push_neg at hno
  obtain ⟨ia, hia, hA⟩ := ha
  obtain ⟨ib, hib, hB⟩ := hb
  have hconst : ∀ b, b < n → aboveB v y b = aboveB v y 0 := by
    intro b hbn
    refine aboveB_const_of_no_crossing v n y b (Nat.zero_le b) hbn ?_
    intro k _ h2
    have := hno k (by omega)
    simpa using this
  rw [hconst ia hia] at hA
  rw [hconst ib hib] at hB
  rw [hA] at hB
  exact absurd hB (by decide)

/-- No four cyclically ordered vertices alternate strictly about the line —
the combinatorial footprint of convex position. -/
def No4Alt (v : ℕ → LatLng) (n : ℕ) (y : ℚ) : Prop :=
  ∀ q1 q2 q3 q4, q1 < q2 → q2 < q3 → q3 < q4 → q4 < n →
    ¬ (aboveB v y q1 = aboveB v y q3 ∧ aboveB v y q2 = aboveB v y q4 ∧
       aboveB v y q1 = !(aboveB v y q2))

/-- Without a four-fold alternation at most two edges straddle the line. -/
theorem crossings_le_two (v : ℕ → LatLng) (n : ℕ) (y : ℚ)
    (hno : No4Alt v n y) :
    ((List.range n).filter (crossingB v n y)).length ≤ 2 := by
  by_contra hgt
  push_neg at hgt
  have hsub := List.filter_sublist (p := crossingB v n y) (List.range n)
  have hsort : ((List.range n).filter (crossingB v n y)).Pairwise (· < ·) :=
    List.Pairwise.sublist hsub (List.pairwise_lt_range n)
  have hBswap : ∀ x z : Bool, (x != z) = true → z = !x := by decide
  have hNN : ∀ x : Bool, x ≠ !x := by decide
  have hNotSwap : ∀ x z : Bool, x = !z → z = !x := by decide
  obtain ⟨i1, i2, i3, rest, hLeq⟩ :
      ∃ i1 i2 i3 rest, (List.range n).filter (crossingB v n y) =
        i1 :: i2 :: i3 :: rest := by
    rcases hL : (List.range n).filter (crossingB v n y) with _ | ⟨a, _ | ⟨b, _ | ⟨c, r⟩⟩⟩
    · rw [hL] at hgt; simp at hgt
    · rw [hL] at hgt; simp at hgt
    · rw [hL] at hgt; simp at hgt
    · exact ⟨a, b, c, r, rfl⟩
  rw [hLeq] at hsort hsub
  have h12 : i1 < i2 := (List.pairwise_cons.mp hsort).1 i2 (by simp)
  have h13 : i1 < i3 := (List.pairwise_cons.mp hsort).1 i3 (by simp)
  have h23 : i2 < i3 :=
    (List.pairwise_cons.mp (List.pairwise_cons.mp hsort).2).1 i3 (by simp)
  have hmemL : ∀ k, k ∈ i1 :: i2 :: i3 :: rest ↔
      k ∈ (List.range n).filter (crossingB v n y) := by
    intro k; rw [hLeq]
  have hcrossing : ∀ k, k ∈ i1 :: i2 :: i3 :: rest →
      k < n ∧ crossingB v n y k = true := by
    intro k hk
    have := List.mem_filter.mp ((hmemL k).mp hk)
    exact ⟨List.mem_range.mp this.1, this.2⟩
  have hrest_gt : ∀ r ∈ rest, i3 < r := by
    intro r hr
    exact (List.pairwise_cons.mp
      (List.pairwise_cons.mp (List.pairwise_cons.mp hsort).2).2).1 r hr
  obtain ⟨hn1, hcr1⟩ := hcrossing i1 (by simp)
  obtain ⟨hn2, hcr2⟩ := hcrossing i2 (by simp)
  obtain ⟨hn3, hcr3⟩ := hcrossing i3 (by simp)
  have honly : ∀ k, k < n → crossingB v n y k = true →
      k = i1 ∨ k = i2 ∨ k = i3 ∨ k ∈ rest := by
    intro k hk hc
    have : k ∈ (List.range n).filter (crossingB v n y) :=
      List.mem_filter.mpr ⟨List.mem_range.mpr hk, hc⟩
    simpa using (hmemL k).mpr this
  -- run lemma: between two consecutive listed crossings nothing straddles
  have hnless : ∀ k, i1 < k → k < i2 → crossingB v n y k = false := by
    intro k hk1 hk2
    by_contra hc
    rw [Bool.not_eq_false] at hc
    rcases honly k (by omega) hc with rfl | rfl | rfl | hk
    · omega
    · omega
    · omega
    · have := hrest_gt k hk; omega
  have hnless23 : ∀ k, i2 < k → k < i3 → crossingB v n y k = false := by
    intro k hk1 hk2
    by_contra hc
    rw [Bool.not_eq_false] at hc
    rcases honly k (by omega) hc with rfl | rfl | rfl | hk
    · omega
    · omega
    · omega
    · have := hrest_gt k hk; omega
  have hp2 : predIdx n i2 = i2 - 1 := by
    have : i2 ≠ 0 := by omega
    simp [predIdx, this]
  have hp3 : predIdx n i3 = i3 - 1 := by
    have : i3 ≠ 0 := by omega
    simp [predIdx, this]
  have hv2 : aboveB v y (i2 - 1) = !(aboveB v y i2) := by
    have := hBswap _ _ hcr2
    rwa [hp2] at this
  have hv3 : aboveB v y (i3 - 1) = !(aboveB v y i3) := by
    have := hBswap _ _ hcr3
    rwa [hp3] at this
  have hrun12 : aboveB v y (i2 - 1) = aboveB v y i1 := by
    refine aboveB_const_of_no_crossing v n y (i2 - 1) (by omega) (by omega) ?_
    intro k hk1 hk2
    exact hnless k hk1 (by omega)
  have hrun23 : aboveB v y (i3 - 1) = aboveB v y i2 := by
    refine aboveB_const_of_no_crossing v n y (i3 - 1) (by omega) (by omega) ?_
    intro k hk1 hk2
    exact hnless23 k hk1 (by omega)
  -- name the four relevant Boolean values
  have hB2 : aboveB v y i2 = !(aboveB v y i1) :=
    hNotSwap _ _ (hrun12.symm.trans hv2)
  have hB3 : aboveB v y i3 = aboveB v y i1 := by
    have h1 : aboveB v y i3 = !(aboveB v y i2) :=
      hNotSwap _ _ (hrun23.symm.trans hv3)
    rw [h1, hB2, Bool.not_not]
  rcases Nat.eq_zero_or_pos i1 with rfl | hi1pos
  · -- the wrap-around predecessor of edge 0 is the last vertex
    have hcr1w := hBswap _ _ hcr1
    have hp1 : predIdx n 0 = n - 1 := by simp [predIdx]
    rw [hp1] at hcr1w
    -- vertices 0 < i2 < i3 ≤ n-1 with alternation; distinguish i3 = n-1
    rcases eq_or_lt_of_le (show i3 ≤ n - 1 by omega) with h3n | h3n
    · -- i3 itself is the last vertex: use 0 < i2-1 or i2 < i3-1 patterns
      -- B (n-1) = !(B 0), but B i3 = B i1 = B 0 and i3 = n-1: contradiction
      rw [h3n] at hB3
      exact hNN _ (hB3.symm.trans hcr1w)
    · -- quadruple (0, i2, i3, n-1)
      exact hno 0 i2 i3 (n - 1) h12 h23 h3n (by omega)
        ⟨hB3.symm, hB2.trans hcr1w.symm, hNotSwap _ _ hB2⟩
  · -- i1 ≥ 1: the forced values alternate on the quadruple (i1-1, i1, i2, i3)
    have hp1 : predIdx n i1 = i1 - 1 := by
      have : i1 ≠ 0 := by omega
      simp [predIdx, this]
    have hv1 : aboveB v y (i1 - 1) = !(aboveB v y i1) := by
      have := hBswap _ _ hcr1
      rwa [hp1] at this
    exact hno (i1 - 1) i1 i2 i3 (by omega) h12 h23 hn3
      ⟨hv1.trans hB2.symm, hB3.symm, hv1⟩

/-- With convexity excluding a third straddle and vertices on both sides of
the line, the ring has exactly two straddling edges: one upward and one
downward. -/
theorem crossing_structure (v : ℕ → LatLng) (n : ℕ) (y : ℚ)
    (hno : No4Alt v n y)
    (ha : ∃ i, i < n ∧ aboveB v y i = true)
    (hb : ∃ i, i < n ∧ aboveB v y i = false) :
    ∃ iu idn, iu < n ∧ idn < n ∧ iu ≠ idn ∧
      aboveB v y iu = true ∧ aboveB v y (predIdx n iu) = false ∧
      aboveB v y idn = false ∧ aboveB v y (predIdx n idn) = true ∧
      ∀ k, k < n → crossingB v n y k = true → k = iu ∨ k = idn := by
  have hBswap : ∀ x z : Bool, (x != z) = true → z = !x := by decide
  have hNotSwap : ∀ x z : Bool, x = !z → z = !x := by decide
  have heven := crossingB_count_even v n y
  rw [List.countP_eq_length_filter] at heven
  have hle2 := crossings_le_two v n y hno
  have hpos : 0 < ((List.range n).filter (crossingB v n y)).length := by
    obtain ⟨i, hi, hc⟩ := exists_crossingB v n y ha hb
    exact List.length_pos_of_mem
      (List.mem_filter.mpr ⟨List.mem_range.mpr hi, hc⟩)
  have hlen2 : ((List.range n).filter (crossingB v n y)).length = 2 := by omega
  obtain ⟨i1, i2, hLeq⟩ := List.length_eq_two.mp hlen2
  have hsort : List.Pairwise (· < ·) [i1, i2] := by
    rw [← hLeq]
    exact List.Pairwise.sublist (List.filter_sublist _) (List.pairwise_lt_range n)
  have h12 : i1 < i2 := by
    have := (List.pairwise_cons.mp hsort).1 i2 (by simp)
    exact this
  have hmem1 : i1 ∈ (List.range n).filter (crossingB v n y) := by
    rw [hLeq]; simp
  have hmem2 : i2 ∈ (List.range n).filter (crossingB v n y) := by
    rw [hLeq]; simp
  obtain ⟨hn1', hcr1⟩ := List.mem_filter.mp hmem1
  obtain ⟨hn2', hcr2⟩ := List.mem_filter.mp hmem2
  have hn1 : i1 < n := List.mem_range.mp hn1'
  have hn2 : i2 < n := List.mem_range.mp hn2'
  have honly : ∀ k, k < n → crossingB v n y k = true → k = i1 ∨ k = i2 := by
    intro k hk hc
    have : k ∈ (List.range n).filter (crossingB v n y) :=
      List.mem_filter.mpr ⟨List.mem_range.mpr hk, hc⟩
    rw [hLeq] at this
    simpa using this
  have hp2 : predIdx n i2 = i2 - 1 := by
    have : i2 ≠ 0 := by omega
    simp [predIdx, this]
  have hrun : aboveB v y (i2 - 1) = aboveB v y i1 := by
    refine aboveB_const_of_no_crossing v n y (i2 - 1) (by omega) (by omega) ?_
    intro k hk1 hk2
    by_contra hc
    rw [Bool.not_eq_false] at hc
    rcases honly k (by omega) hc with rfl | rfl
    · omega
    · omega
  have hv1 : aboveB v y (predIdx n i1) = !(aboveB v y i1) := hBswap _ _ hcr1
  have hv2 : aboveB v y (i2 - 1) = !(aboveB v y i2) := by
    have := hBswap _ _ hcr2
    rwa [hp2] at this
  have hB2 : aboveB v y i2 = !(aboveB v y i1) :=
    hNotSwap _ _ (hrun.symm.trans hv2)
  cases hc : aboveB v y i1 with
  | false =>
    refine ⟨i2, i1, hn2, hn1, by omega, ?_, ?_, hc, ?_, ?_⟩
    · rw [hB2, hc]; rfl
    · rw [hp2, hrun, hc]
    · rw [hv1, hc]; rfl
    · intro k hk hck
      exact (honly k hk hck).symm
  | true =>
    refine ⟨i1, i2, hn1, hn2, by omega, hc, ?_, ?_, ?_, ?_⟩
    · rw [hv1, hc]; rfl
    · rw [hB2, hc]; rfl
    · rw [hp2, hrun, hc]
    · intro k hk hck
      exact honly k hk hck

/-- Diagonals of a convex quadrilateral meet: if `A, B, C, D` are in strictly
convex position (all four oriented triples positive) then `A` and `C` cannot
lie strictly above a horizontal line while `B` and `D` lie on or below it,
because the intersection point of the diagonals would have to be on both
sides.  Stated over raw coordinates `(xa, ya), ..., (xd, yd)` and level `w`. -/
theorem quad_diagonals_clash (xa ya xb yb xc yc xd yd w : ℚ)
    (hABC : 0 < (xb - xa) * (yc - ya) - (yb - ya) * (xc - xa))
    (hABD : 0 < (xb - xa) * (yd - ya) - (yb - ya) * (xd - xa))
    (hACD : 0 < (xc - xa) * (yd - ya) - (yc - ya) * (xd - xa))
    (hBCD : 0 < (xc - xb) * (yd - yb) - (yc - yb) * (xd - xb))
    (hA : w < ya) (hC : w < yc) (hB : yb ≤ w) (hD : yd ≤ w) : False := by
  have hα : 0 < (xd - xb) * (ya - yb) - (yd - yb) * (xa - xb) := by
    nlinarith [hABD]
  have hγ : (xd - xb) * (yc - yb) - (yd - yb) * (xc - xb) < 0 := by
    nlinarith [hBCD]
  have hβ : (xc - xa) * (yb - ya) - (yc - ya) * (xb - xa) < 0 := by
    nlinarith [hABC]
  have hd1 : 0 < ((xd - xb) * (ya - yb) - (yd - yb) * (xa - xb)) -
      ((xd - xb) * (yc - yb) - (yd - yb) * (xc - xb)) := by linarith
  have hd2 : ((xc - xa) * (yb - ya) - (yc - ya) * (xb - xa)) -
      ((xc - xa) * (yd - ya) - (yc - ya) * (xd - xa)) < 0 := by linarith
  set t := ((xd - xb) * (ya - yb) - (yd - yb) * (xa - xb)) /
      (((xd - xb) * (ya - yb) - (yd - yb) * (xa - xb)) -
       ((xd - xb) * (yc - yb) - (yd - yb) * (xc - xb))) with htdef
  have ht0 : 0 < t := div_pos hα hd1
  have ht1 : t < 1 := by
    rw [htdef, div_lt_one hd1]
    linarith
  set s := ((xc - xa) * (yb - ya) - (yc - ya) * (xb - xa)) /
      (((xc - xa) * (yb - ya) - (yc - ya) * (xb - xa)) -
       ((xc - xa) * (yd - ya) - (yc - ya) * (xd - xa))) with hsdef
  have hs0 : 0 < s := div_pos_of_neg_of_neg hβ hd2
  have hs' : s * (((xc - xa) * (yb - ya) - (yc - ya) * (xb - xa)) -
      ((xc - xa) * (yd - ya) - (yc - ya) * (xd - xa))) =
      (xc - xa) * (yb - ya) - (yc - ya) * (xb - xa) := by
    rw [hsdef]
    exact div_mul_cancel₀ _ hd2.ne
  have hs1 : s < 1 := by
    by_contra hcon
    push_neg at hcon
    nlinarith [hs', hACD, mul_nonneg (show (0 : ℚ) ≤ s - 1 by linarith)
      (show (0 : ℚ) ≤ -(((xc - xa) * (yb - ya) - (yc - ya) * (xb - xa)) -
        ((xc - xa) * (yd - ya) - (yc - ya) * (xd - xa))) by linarith)]
  have hPlng : w < ya + t * (yc - ya) := by
    nlinarith [mul_pos (show (0 : ℚ) < 1 - t by linarith)
        (show (0 : ℚ) < ya - w by linarith),
      mul_pos ht0 (show (0 : ℚ) < yc - w by linarith)]
  have hQlng : yb + s * (yd - yb) ≤ w := by
    nlinarith [mul_nonneg (show (0 : ℚ) ≤ 1 - s by linarith)
        (show (0 : ℚ) ≤ w - yb by linarith),
      mul_nonneg hs0.le (show (0 : ℚ) ≤ w - yd by linarith)]
  have hACP : (xc - xa) * ((ya + t * (yc - ya)) - ya) -
      (yc - ya) * ((xa + t * (xc - xa)) - xa) = 0 := by ring
  have hBDQ : (xd - xb) * ((yb + s * (yd - yb)) - yb) -
      (yd - yb) * ((xb + s * (xd - xb)) - xb) = 0 := by ring
  have ht' : t * (((xd - xb) * (ya - yb) - (yd - yb) * (xa - xb)) -
      ((xd - xb) * (yc - yb) - (yd - yb) * (xc - xb))) =
      (xd - xb) * (ya - yb) - (yd - yb) * (xa - xb) := by
    rw [htdef]
    exact div_mul_cancel₀ _ hd1.ne'
  have hBDP : (xd - xb) * ((ya + t * (yc - ya)) - yb) -
      (yd - yb) * ((xa + t * (xc - xa)) - xb) = 0 := by
    linear_combination (-1 : ℚ) * ht'
  have hACQ : (xc - xa) * ((yb + s * (yd - yb)) - ya) -
      (yc - ya) * ((xb + s * (xd - xb)) - xa) = 0 := by
    linear_combination (-1 : ℚ) * hs'
  have hsub1 : (xc - xa) * ((ya + t * (yc - ya)) - (yb + s * (yd - yb))) -
      (yc - ya) * ((xa + t * (xc - xa)) - (xb + s * (xd - xb))) = 0 := by
    linear_combination hACP - hACQ
  have hsub2 : (xd - xb) * ((ya + t * (yc - ya)) - (yb + s * (yd - yb))) -
      (yd - yb) * ((xa + t * (xc - xa)) - (xb + s * (xd - xb))) = 0 := by
    linear_combination hBDP - hBDQ
  have hdet : (xc - xa) * (yd - yb) - (yc - ya) * (xd - xb) ≠ 0 := by
    intro h0
    have hzero : ((xd - xb) * (ya - yb) - (yd - yb) * (xa - xb)) -
        ((xd - xb) * (yc - yb) - (yd - yb) * (xc - xb)) = 0 := by
      linear_combination h0
    linarith
  have hkey : ((xc - xa) * (yd - yb) - (yc - ya) * (xd - xb)) *
      ((ya + t * (yc - ya)) - (yb + s * (yd - yb))) = 0 := by
    linear_combination (yd - yb) * hsub1 - (yc - ya) * hsub2
  rcases mul_eq_zero.mp hkey with h | h
  · exact hdet h
  · linarith

/-- Unfolds the bounded-quantifier form of strictly convex position. -/
theorem convexCCW_triple {v : ℕ → LatLng} {n : ℕ} (h : ConvexCCW v n)
    {i j k : ℕ} (hij : i < j) (hjk : j < k) (hk : k < n) :
    0 < cross (v i) (v j) (v k) :=
  h k hk j hjk i hij

/-- Strictly convex position rules out four vertices alternating about any
horizontal line: the two same-side diagonals of the would-be alternation
must intersect, and the intersection point cannot be on both sides. -/
theorem no4alt_of_convexCCW (v : ℕ → LatLng) (n : ℕ) (y : ℚ)
    (hconv : ConvexCCW v n) : No4Alt v n y := by
  intro q1 q2 q3 q4 h12 h23 h34 h4
  rintro ⟨heq13, heq24, hne12⟩
  have hts : ∀ z : Bool, true = !z → z = false := by decide
  have hfs : ∀ z : Bool, false = !z → z = true := by decide
  have hc123 := convexCCW_triple hconv h12 h23 (h34.trans h4)
  have hc124 := convexCCW_triple hconv h12 (h23.trans h34) h4
  have hc134 := convexCCW_triple hconv (h12.trans h23) h34 h4
  have hc234 := convexCCW_triple hconv h23 h34 h4
  simp only [cross] at hc123 hc124 hc134 hc234
  cases hb1 : aboveB v y q1 with
  | true =>
    have hb3 : aboveB v y q3 = true := heq13 ▸ hb1
    have hb2 : aboveB v y q2 = false := by
      rw [hb1] at hne12
      exact hts _ hne12
    have hb4 : aboveB v y q4 = false := heq24 ▸ hb2
    have hA : y < (v q1).lng := of_decide_eq_true hb1
    have hC : y < (v q3).lng := of_decide_eq_true hb3
    have hB : (v q2).lng ≤ y := not_lt.mp (of_decide_eq_false hb2)
    have hD : (v q4).lng ≤ y := not_lt.mp (of_decide_eq_false hb4)
    exact quad_diagonals_clash (v q1).lat (v q1).lng (v q2).lat (v q2).lng
      (v q3).lat (v q3).lng (v q4).lat (v q4).lng y
      hc123 hc124 hc134 hc234 hA hC hB hD
  | false =>
    have hb3 : aboveB v y q3 = false := heq13 ▸ hb1
    have hb2 : aboveB v y q2 = true := by
      rw [hb1] at hne12
      exact hfs _ hne12
    have hb4 : aboveB v y q4 = true := heq24 ▸ hb2
    have hA : y < (v q2).lng := of_decide_eq_true hb2
    have hC : y < (v q4).lng := of_decide_eq_true hb4
    have hB : (v q3).lng ≤ y := not_lt.mp (of_decide_eq_false hb3)
    have hD : (v q1).lng ≤ y := not_lt.mp (of_decide_eq_false hb1)
    refine quad_diagonals_clash (v q2).lat (v q2).lng (v q3).lat (v q3).lng
      (v q4).lat (v q4).lng (v q1).lat (v q1).lng y
      hc234 ?_ ?_ ?_ hA hC hB hD
    · nlinarith [hc123]
    · nlinarith [hc124]
    · nlinarith [hc134]

theorem predIdx_lt {n m : ℕ} (hm : m < n) : predIdx n m < n := by
  unfold predIdx
  split <;> omega

theorem succ_predIdx {n m : ℕ} (hm : m < n) : (predIdx n m + 1) % n = m := by
  rcases Nat.eq_zero_or_pos m with rfl | hpos
  · have h1 : predIdx n 0 = n - 1 := by simp [predIdx]
    rw [h1, Nat.sub_add_cancel (by omega)]
    exact Nat.mod_self n
  · have h0 : m ≠ 0 := by omega
    have h1 : predIdx n m = m - 1 := by simp [predIdx, h0]
    rw [h1, Nat.sub_add_cancel (by omega)]
    exact Nat.mod_eq_of_lt hm

/-- The corner of the ring at any vertex turns left: convex position applied
to the cyclic triple (predecessor, vertex, successor). -/
theorem corner_cross_pos (v : ℕ → LatLng) (n : ℕ) (hn : 3 ≤ n)
    (hconv : ConvexCCW v n) {m : ℕ} (hm : m < n) :
    0 < cross (v (predIdx n m)) (v m) (v ((m + 1) % n)) := by
  by_cases hm0 : m = 0
  · subst hm0
    have hp : predIdx n 0 = n - 1 := by simp [predIdx]
    have hs : (0 + 1) % n = 1 := Nat.mod_eq_of_lt (by omega)
    rw [hp, hs]
    have h := convexCCW_triple hconv (show 0 < 1 by omega)
      (show 1 < n - 1 by omega) (show n - 1 < n by omega)
    rw [cross_cyclic]
    exact h
  · by_cases hmn : m = n - 1
    · subst hmn
      have hp : predIdx n (n - 1) = n - 2 := by
        have h1 : n - 1 ≠ 0 := by omega
        simp [predIdx, h1]
        omega
      have hs : (n - 1 + 1) % n = 0 := by
        rw [Nat.sub_add_cancel (by omega)]
        exact Nat.mod_self n
      rw [hp, hs]
      have h := convexCCW_triple hconv (show 0 < n - 2 by omega)
        (show n - 2 < n - 1 by omega) (show n - 1 < n by omega)
      rw [cross_cyclic, cross_cyclic]
      exact h
    · have hp : predIdx n m = m - 1 := by simp [predIdx, hm0]
      have hs : (m + 1) % n = m + 1 := Nat.mod_eq_of_lt (by omega)
      rw [hp, hs]
      exact convexCCW_triple hconv (show m - 1 < m by omega)
        (show m < m + 1 by omega) (by omega)

/-- A point strictly inside a counterclockwise convex ring lies strictly
below some vertex is impossible to avoid: it cannot be on or above all of
them — at a longitude-minimal vertex the two adjacent inside conditions and
the corner orientation contradict `wedge_min`. -/
theorem exists_not_above (v : ℕ → LatLng) (n : ℕ) (p : LatLng)
    (hn : 3 ≤ n) (hconv : ConvexCCW v n) (hins : InsideCCW v n p) :
    ∃ i, i < n ∧ aboveB v p.lng i = false := by
  by_contra hno
  push_neg at hno
  have hall : ∀ i, i < n → p.lng < (v i).lng := by
    intro i hi
    exact of_decide_eq_true (Bool.ne_false_iff.mp (hno i hi))
  obtain ⟨m, hmmem, hmin⟩ := Finset.exists_min_image (Finset.range n)
    (fun i => (v i).lng) ⟨0, Finset.mem_range.mpr (by omega)⟩
  have hm : m < n := Finset.mem_range.mp hmmem
  have hminm : ∀ i, i < n → (v m).lng ≤ (v i).lng := fun i hi =>
    hmin i (Finset.mem_range.mpr hi)
  have hedge1 : 0 < cross (v (predIdx n m)) (v m) p := by
    have h := hins (predIdx n m) (predIdx_lt hm)
    rwa [succ_predIdx hm] at h
  have hedge2 : 0 < cross (v m) (v ((m + 1) % n)) p := hins m hm
  have hcorner := corner_cross_pos v n hn hconv hm
  have hid1 : cross (v (predIdx n m)) (v m) p =
      ((v m).lat - (v (predIdx n m)).lat) * (p.lng - (v m).lng) -
      ((v m).lng - (v (predIdx n m)).lng) * (p.lat - (v m).lat) := by
    simp only [cross]
    ring
  have hidc : cross (v (predIdx n m)) (v m) (v ((m + 1) % n)) =
      ((v m).lat - (v (predIdx n m)).lat) * ((v ((m + 1) % n)).lng - (v m).lng) -
      ((v m).lng - (v (predIdx n m)).lng) * ((v ((m + 1) % n)).lat - (v m).lat) := by
    simp only [cross]
    ring
  rw [hid1] at hedge1
  rw [hidc] at hcorner
  simp only [cross] at hedge2
  exact wedge_min ((v m).lat - (v (predIdx n m)).lat)
    ((v m).lng - (v (predIdx n m)).lng)
    ((v ((m + 1) % n)).lat - (v m).lat) ((v ((m + 1) % n)).lng - (v m).lng)
    (p.lat - (v m).lat) (p.lng - (v m).lng)
    (by have := hminm (predIdx n m) (predIdx_lt hm); linarith)
    (by have := hminm ((m + 1) % n) (Nat.mod_lt _ (by omega)); linarith)
    (by have := hall m hm; linarith)
    hcorner hedge1 hedge2

/-- Symmetrically, a strictly interior point cannot be on or above the line
through every vertex of the ring: contradiction with `wedge_max` at a
longitude-maximal vertex. -/
theorem exists_above (v : ℕ → LatLng) (n : ℕ) (p : LatLng)
    (hn : 3 ≤ n) (hconv : ConvexCCW v n) (hins : InsideCCW v n p) :
    ∃ i, i < n ∧ aboveB v p.lng i = true := by
  by_contra hno
  push_neg at hno
  have hall : ∀ i, i < n → (v i).lng ≤ p.lng := by
    intro i hi
    have hf : aboveB v p.lng i = false := Bool.eq_false_iff.mpr (hno i hi)
    exact not_lt.mp (of_decide_eq_false hf)
  obtain ⟨m, hmmem, hmax⟩ := Finset.exists_max_image (Finset.range n)
    (fun i => (v i).lng) ⟨0, Finset.mem_range.mpr (by omega)⟩
  have hm : m < n := Finset.mem_range.mp hmmem
  have hmaxm : ∀ i, i < n → (v i).lng ≤ (v m).lng := fun i hi =>
    hmax i (Finset.mem_range.mpr hi)
  have hedge1 : 0 < cross (v (predIdx n m)) (v m) p := by
    have h := hins (predIdx n m) (predIdx_lt hm)
    rwa [succ_predIdx hm] at h
  have hedge2 : 0 < cross (v m) (v ((m + 1) % n)) p := hins m hm
  have hcorner := corner_cross_pos v n hn hconv hm
  have hid1 : cross (v (predIdx n m)) (v m) p =
      ((v m).lat - (v (predIdx n m)).lat) * (p.lng - (v m).lng) -
      ((v m).lng - (v (predIdx n m)).lng) * (p.lat - (v m).lat) := by
    simp only [cross]
    ring
  have hidc : cross (v (predIdx n m)) (v m) (v ((m + 1) % n)) =
      ((v m).lat - (v (predIdx n m)).lat) * ((v ((m + 1) % n)).lng - (v m).lng) -
      ((v m).lng - (v (predIdx n m)).lng) * ((v ((m + 1) % n)).lat - (v m).lat) := by
    simp only [cross]
    ring
  rw [hid1] at hedge1
  rw [hidc] at hcorner
  simp only [cross] at hedge2
  exact wedge_max ((v m).lat - (v (predIdx n m)).lat)
    ((v m).lng - (v (predIdx n m)).lng)
    ((v ((m + 1) % n)).lat - (v m).lat) ((v ((m + 1) % n)).lng - (v m).lng)
    (p.lat - (v m).lat) (p.lng - (v m).lng)
    (by have := hmaxm (predIdx n m) (predIdx_lt hm); linarith)
    (by have := hmaxm ((m + 1) % n) (Nat.mod_lt _ (by omega)); linarith)
    (by have := hall m hm; linarith)
    hcorner hedge1 hedge2

/-- An edge whose endpoints are on the same side of the scan line fails the
ray-casting test outright. -/
theorem edgeIntersects_false_of_same (p pI pJ : LatLng)
    (h : decide (pI.lng > p.lng) = decide (pJ.lng > p.lng)) :
    edgeIntersects p pI pJ = false := by
  unfold edgeIntersects
  rw [h, bne_self_eq_false]
  simp

/-- For an upward straddling edge, traversed from `a` up to `b` and scanned
by the loop as `(pI, pJ) = (b, a)`, the full edge test holds exactly when
the point is strictly on the left of the directed line from `a` to `b`. -/
theorem edgeIntersects_up (p a b : LatLng) (hay : a.lng ≤ p.lng)
    (hby : p.lng < b.lng) :
    edgeIntersects p b a = decide (0 < cross a b p) := by
  unfold edgeIntersects
  rw [decide_eq_true (show b.lng > p.lng from hby),
    decide_eq_false (show ¬(a.lng > p.lng) from not_lt.mpr hay)]
  have hd : a.lng - b.lng < 0 := by linarith
  rw [div_add' _ _ _ hd.ne]
  simp only [Bool.true_bne, Bool.not_false, Bool.true_and]
  rw [decide_eq_decide]
  rw [lt_div_iff_of_neg hd, ← sub_pos,
    show p.lat * (a.lng - b.lng) -
        ((a.lat - b.lat) * (p.lng - b.lng) + b.lat * (a.lng - b.lng)) =
      cross a b p from by simp only [cross]; ring]

/-- For a downward straddling edge, traversed from `a` down to `b` and
scanned as `(pI, pJ) = (b, a)`, the full edge test holds exactly when the
point is strictly on the right of the directed line from `a` to `b`. -/
theorem edgeIntersects_down (p a b : LatLng) (hay : p.lng < a.lng)
    (hby : b.lng ≤ p.lng) :
    edgeIntersects p b a = decide (cross a b p < 0) := by
  unfold edgeIntersects
  rw [decide_eq_false (show ¬(b.lng > p.lng) from not_lt.mpr hby),
    decide_eq_true (show a.lng > p.lng from hay)]
  have hd : 0 < a.lng - b.lng := by linarith
  rw [div_add' _ _ _ hd.ne']
  simp only [Bool.false_bne, Bool.true_and]
  rw [decide_eq_decide]
  rw [lt_div_iff hd, ← sub_pos,
    show (a.lat - b.lat) * (p.lng - b.lng) + b.lat * (a.lng - b.lng) -
        p.lat * (a.lng - b.lng) = -(cross a b p) from by simp only [cross]; ring,
    neg_pos]

/-- When the point lies strictly to the right (greater latitude) of both
endpoints the edge test fails: the candidate intersection lies between the
endpoint latitudes. -/
theorem edgeIntersects_false_of_lat_lt (p pI pJ : LatLng)
    (hI : pI.lat < p.lat) (hJ : pJ.lat < p.lat) :
    edgeIntersects p pI pJ = false := by
  rcases eq_or_ne (decide (pI.lng > p.lng)) (decide (pJ.lng > p.lng)) with h | h
  · exact edgeIntersects_false_of_same p pI pJ h
  · have hcases : (pJ.lng ≤ p.lng ∧ p.lng < pI.lng) ∨
        (pI.lng ≤ p.lng ∧ p.lng < pJ.lng) := by
      cases hA : decide (pI.lng > p.lng) <;> cases hB : decide (pJ.lng > p.lng)
      · rw [hA, hB] at h; simp at h
      · exact Or.inr ⟨not_lt.mp (of_decide_eq_false hA), of_decide_eq_true hB⟩
      · exact Or.inl ⟨not_lt.mp (of_decide_eq_false hB), of_decide_eq_true hA⟩
      · rw [hA, hB] at h; simp at h
    have hsecond : ¬(p.lat <
        (pJ.lat - pI.lat) * (p.lng - pI.lng) / (pJ.lng - pI.lng) + pI.lat) := by
      rcases hcases with ⟨h1, h2⟩ | ⟨h1, h2⟩
      · have hd : pJ.lng - pI.lng < 0 := by linarith
        rw [div_add' _ _ _ hd.ne, not_lt, div_le_iff_of_neg hd]
        nlinarith [mul_pos (show (0 : ℚ) < p.lat - pJ.lat by linarith)
            (show (0 : ℚ) < pI.lng - p.lng by linarith),
          mul_nonneg (show (0 : ℚ) ≤ p.lat - pI.lat by linarith)
            (show (0 : ℚ) ≤ p.lng - pJ.lng by linarith)]
      · have hd : 0 < pJ.lng - pI.lng := by linarith
        rw [div_add' _ _ _ hd.ne', not_lt, div_le_iff hd]
        nlinarith [mul_pos (show (0 : ℚ) < p.lat - pI.lat by linarith)
            (show (0 : ℚ) < pJ.lng - p.lng by linarith),
          mul_nonneg (show (0 : ℚ) ≤ p.lat - pJ.lat by linarith)
            (show (0 : ℚ) ≤ p.lng - pI.lng by linarith)]
    unfold edgeIntersects
    rw [decide_eq_false hsecond, Bool.and_false]

/-- When the point lies strictly to the left (smaller latitude) of both
endpoints, the edge test reduces to the straddle test alone. -/
theorem edgeIntersects_eq_straddle_of_lt_lat (p pI pJ : LatLng)
    (hI : p.lat < pI.lat) (hJ : p.lat < pJ.lat) :
    edgeIntersects p pI pJ =
      (decide (pI.lng > p.lng) != decide (pJ.lng > p.lng)) := by
  rcases eq_or_ne (decide (pI.lng > p.lng)) (decide (pJ.lng > p.lng)) with h | h
  · rw [edgeIntersects_false_of_same p pI pJ h, h, bne_self_eq_false]
  · have hcases : (pJ.lng ≤ p.lng ∧ p.lng < pI.lng) ∨
        (pI.lng ≤ p.lng ∧ p.lng < pJ.lng) := by
      cases hA : decide (pI.lng > p.lng) <;> cases hB : decide (pJ.lng > p.lng)
      · rw [hA, hB] at h; simp at h
      · exact Or.inr ⟨not_lt.mp (of_decide_eq_false hA), of_decide_eq_true hB⟩
      · exact Or.inl ⟨not_lt.mp (of_decide_eq_false hB), of_decide_eq_true hA⟩
      · rw [hA, hB] at h; simp at h
    have hsecond : p.lat <
        (pJ.lat - pI.lat) * (p.lng - pI.lng) / (pJ.lng - pI.lng) + pI.lat := by
      rcases hcases with ⟨h1, h2⟩ | ⟨h1, h2⟩
      · have hd : pJ.lng - pI.lng < 0 := by linarith
        rw [div_add' _ _ _ hd.ne, lt_div_iff_of_neg hd]
        nlinarith [mul_pos (show (0 : ℚ) < pJ.lat - p.lat by linarith)
            (show (0 : ℚ) < pI.lng - p.lng by linarith),
          mul_nonneg (show (0 : ℚ) ≤ pI.lat - p.lat by linarith)
            (show (0 : ℚ) ≤ p.lng - pJ.lng by linarith)]
      · have hd : 0 < pJ.lng - pI.lng := by linarith
        rw [div_add' _ _ _ hd.ne', lt_div_iff hd]
        nlinarith [mul_pos (show (0 : ℚ) < pI.lat - p.lat by linarith)
            (show (0 : ℚ) < pJ.lng - p.lng by linarith),
          mul_nonneg (show (0 : ℚ) ≤ pJ.lat - p.lat by linarith)
            (show (0 : ℚ) ≤ p.lng - pI.lng by linarith)]
    unfold edgeIntersects
    rw [decide_eq_true hsecond, Bool.and_true]

/-- Core interior result, counterclockwise case: a point strictly inside a
strictly convex counterclockwise ring passes the ray-casting test — exactly
one edge (the unique upward straddle) fires. -/
theorem isPointInPolygon_of_inside_ccw (ring : List LatLng) (p : LatLng)
    (hn : 3 ≤ ring.length)
    (hconv : ConvexCCW (fun i => ring.getD i default) ring.length)
    (hins : InsideCCW (fun i => ring.getD i default) ring.length p) :
    isPointInPolygon p ring = true := by
  set v := fun i => ring.getD i default with hv
  set n := ring.length with hnn
  have hno : No4Alt v n p.lng := no4alt_of_convexCCW v n p.lng hconv
  have hab := exists_above v n p hn hconv hins
  have hnb := exists_not_above v n p hn hconv hins
  obtain ⟨iu, idn, hun, hdn, hne, hu1, hu2, hd1, hd2, honly⟩ :=
    crossing_structure v n p.lng hno hab hnb
  have hedge : ∀ j, j < n → edgeCondAt p ring j = decide (j = iu) := by
    intro j hj
    have hpj : predIdx n j < n := predIdx_lt hj
    have hcond : edgeCondAt p ring j =
      edgeIntersects p (v j) (v (predIdx n j)) := rfl
    by_cases hju : j = iu
    · subst hju
      have hay : (v (predIdx n j)).lng ≤ p.lng :=
        not_lt.mp (of_decide_eq_false hu2)
      have hby : p.lng < (v j).lng := of_decide_eq_true hu1
      have hcross : 0 < cross (v (predIdx n j)) (v j) p := by
        have h := hins (predIdx n j) hpj
        rwa [succ_predIdx hj] at h
      rw [hcond, edgeIntersects_up p _ _ hay hby, decide_eq_true hcross,
        decide_eq_true rfl]
    · by_cases hjd : j = idn
      · subst hjd
        have hay : p.lng < (v (predIdx n j)).lng := of_decide_eq_true hd2
        have hby : (v j).lng ≤ p.lng := not_lt.mp (of_decide_eq_false hd1)
        have hcross : 0 < cross (v (predIdx n j)) (v j) p := by
          have h := hins (predIdx n j) hpj
          rwa [succ_predIdx hj] at h
        rw [hcond, edgeIntersects_down p _ _ hay hby,
          decide_eq_false (not_lt.mpr hcross.le), decide_eq_false hju]
      · have hnc : crossingB v n p.lng j = false := by
          by_contra hc
          rw [Bool.not_eq_false] at hc
          rcases honly j hj hc with rfl | rfl
          · exact hju rfl
          · exact hjd rfl
        have hsame : decide ((v j).lng > p.lng) =
            decide ((v (predIdx n j)).lng > p.lng) := by
          unfold crossingB aboveB at hnc
          exact bne_eq_false_iff_eq.mp hnc
        rw [hcond, edgeIntersects_false_of_same p _ _ hsame,
          decide_eq_false hju]
  have hcount : (List.range n).countP (edgeCondAt p ring) = 1 := by
    have hcongr : (List.range n).countP (edgeCondAt p ring) =
        (List.range n).countP (fun j => j == iu) := by
      refine List.countP_congr ?_
      intro j hjmem
      rw [hedge j (List.mem_range.mp hjmem)]
      constructor
      · intro h; simpa using of_decide_eq_true h
      · intro h; exact decide_eq_true (by simpa using h)
    rw [hcongr]
    exact List.count_eq_one_of_mem (List.nodup_range n)
      (List.mem_range.mpr hun)
  rw [isPointInPolygon_eq_parity, ← hnn, hcount]
  decide

/-- Core interior result, clockwise case: transfer through the
latitude-negating mirror (which preserves every longitude comparison) and
redo the edge evaluation — here the unique downward straddle fires. -/
theorem isPointInPolygon_of_inside_cw (ring : List LatLng) (p : LatLng)
    (hn : 3 ≤ ring.length)
    (hconv : ConvexCW (fun i => ring.getD i default) ring.length)
    (hins : InsideCW (fun i => ring.getD i default) ring.length p) :
    isPointInPolygon p ring = true := by
  set v := fun i => ring.getD i default with hv
  set n := ring.length with hnn
  have hconv' : ConvexCCW (fun i => mirrorPt (v i)) n := by
    intro k hk j hj i hi
    rw [cross_mirrorPt]
    have := hconv k hk j hj i hi
    linarith
  have hins' : InsideCCW (fun i => mirrorPt (v i)) n (mirrorPt p) := by
    intro i hi
    rw [cross_mirrorPt]
    have := hins i hi
    linarith
  have hno : No4Alt v n p.lng :=
    no4alt_of_convexCCW (fun i => mirrorPt (v i)) n p.lng hconv'
  have hab : ∃ i, i < n ∧ aboveB v p.lng i = true :=
    exists_above (fun i => mirrorPt (v i)) n (mirrorPt p) hn hconv' hins'
  have hnb : ∃ i, i < n ∧ aboveB v p.lng i = false :=
    exists_not_above (fun i => mirrorPt (v i)) n (mirrorPt p) hn hconv' hins'
  obtain ⟨iu, idn, hun, hdn, hne, hu1, hu2, hd1, hd2, honly⟩ :=
    crossing_structure v n p.lng hno hab hnb
  have hedge : ∀ j, j < n → edgeCondAt p ring j = decide (j = idn) := by
    intro j hj
    have hpj : predIdx n j < n := predIdx_lt hj
    have hcond : edgeCondAt p ring j =
      edgeIntersects p (v j) (v (predIdx n j)) := rfl
    by_cases hjd : j = idn
    · subst hjd
      have hay : p.lng < (v (predIdx n j)).lng := of_decide_eq_true hd2
      have hby : (v j).lng ≤ p.lng := not_lt.mp (of_decide_eq_false hd1)
      have hcross : cross (v (predIdx n j)) (v j) p < 0 := by
        have h := hins (predIdx n j) hpj
        rwa [succ_predIdx hj] at h
      rw [hcond, edgeIntersects_down p _ _ hay hby, decide_eq_true hcross,
        decide_eq_true rfl]
    · by_cases hju : j = iu
      · subst hju
        have hay : (v (predIdx n j)).lng ≤ p.lng :=
          not_lt.mp (of_decide_eq_false hu2)
        have hby : p.lng < (v j).lng := of_decide_eq_true hu1
        have hcross : cross (v (predIdx n j)) (v j) p < 0 := by
          have h := hins (predIdx n j) hpj
          rwa [succ_predIdx hj] at h
        rw [hcond, edgeIntersects_up p _ _ hay hby,
          decide_eq_false (not_lt.mpr hcross.le), decide_eq_false hjd]
      · have hnc : crossingB v n p.lng j = false := by
          by_contra hc
          rw [Bool.not_eq_false] at hc
          rcases honly j hj hc with rfl | rfl
          · exact hju rfl
          · exact hjd rfl
        have hsame : decide ((v j).lng > p.lng) =
            decide ((v (predIdx n j)).lng > p.lng) := by
          unfold crossingB aboveB at hnc
          exact bne_eq_false_iff_eq.mp hnc
        rw [hcond, edgeIntersects_false_of_same p _ _ hsame,
          decide_eq_false hjd]
  have hcount : (List.range n).countP (edgeCondAt p ring) = 1 := by
    have hcongr : (List.range n).countP (edgeCondAt p ring) =
        (List.range n).countP (fun j => j == idn) := by
      refine List.countP_congr ?_
      intro j hjmem
      rw [hedge j (List.mem_range.mp hjmem)]
      constructor
      · intro h; simpa using of_decide_eq_true h
      · intro h; exact decide_eq_true (by simpa using h)
    rw [hcongr]
    exact List.count_eq_one_of_mem (List.nodup_range n)
      (List.mem_range.mpr hdn)
  rw [isPointInPolygon_eq_parity, ← hnn, hcount]
  decide

/-- A point strictly outside the ring bounding box fails the ray-casting
test: beyond the longitude range no edge straddles; beyond the latitude
range every straddling edge contributes on one fixed side, giving zero or
an even number of flips. -/
theorem isPointInPolygon_outside_bbox (ring : List LatLng) (p : LatLng)
    (h : (∀ q ∈ ring, q.lat < p.lat) ∨ (∀ q ∈ ring, p.lat < q.lat) ∨
         (∀ q ∈ ring, q.lng < p.lng) ∨ (∀ q ∈ ring, p.lng < q.lng)) :
    isPointInPolygon p ring = false := by
  rw [isPointInPolygon_eq_parity]
  set v := fun i => ring.getD i default with hv
  set n := ring.length with hnn
  have hmem : ∀ j, j < n → v j ∈ ring := by
    intro j hj
    have : v j = ring[j] := List.getD_eq_getElem ring default hj
    rw [this]
    exact List.getElem_mem hj
  have hcond : ∀ j, edgeCondAt p ring j =
      edgeIntersects p (v j) (v (predIdx n j)) := fun j => rfl
  rcases h with h | h | h | h
  · have hzero : (List.range n).countP (edgeCondAt p ring) = 0 := by
      rw [List.countP_eq_zero]
      intro j hjmem
      have hj := List.mem_range.mp hjmem
      rw [hcond j, edgeIntersects_false_of_lat_lt p _ _
        (h _ (hmem j hj)) (h _ (hmem _ (predIdx_lt hj)))]
      simp
    rw [hzero]
    decide
  · have hcongr : (List.range n).countP (edgeCondAt p ring) =
        (List.range n).countP (crossingB v n p.lng) := by
      refine List.countP_congr ?_
      intro j hjmem
      have hj := List.mem_range.mp hjmem
      rw [hcond j, edgeIntersects_eq_straddle_of_lt_lat p _ _
        (h _ (hmem j hj)) (h _ (hmem _ (predIdx_lt hj)))]
      exact Iff.rfl
    have heven := crossingB_count_even v n p.lng
    rw [hcongr]
    exact decide_eq_false (by omega)
  · have hzero : (List.range n).countP (edgeCondAt p ring) = 0 := by
      rw [List.countP_eq_zero]
      intro j hjmem
      have hj := List.mem_range.mp hjmem
      have hsame : decide ((v j).lng > p.lng) =
          decide ((v (predIdx n j)).lng > p.lng) := by
        rw [decide_eq_false (not_lt.mpr (h _ (hmem j hj)).le),
          decide_eq_false (not_lt.mpr (h _ (hmem _ (predIdx_lt hj))).le)]
      rw [hcond j, edgeIntersects_false_of_same p _ _ hsame]
      simp
    rw [hzero]
    decide
  · have hzero : (List.range n).countP (edgeCondAt p ring) = 0 := by
      rw [List.countP_eq_zero]
      intro j hjmem
      have hj := List.mem_range.mp hjmem
      have hsame : decide ((v j).lng > p.lng) =
          decide ((v (predIdx n j)).lng > p.lng) := by
        rw [decide_eq_true (show (v j).lng > p.lng from h _ (hmem j hj)),
          decide_eq_true (show (v (predIdx n j)).lng > p.lng from
            h _ (hmem _ (predIdx_lt hj)))]
      rw [hcond j, edgeIntersects_false_of_same p _ _ hsame]
      simp
    rw [hzero]
    decide

/-- C8: for every strictly convex polygon ring (either orientation) and
every point strictly inside it, `isPointInPolygon` returns `true`; and for
every ring and every point strictly outside the ring's bounding box (all
vertices strictly on one side in latitude or in longitude),
`isPointInPolygon` returns `false`. -/
theorem claim_C8 :
    (∀ (ring : List LatLng) (p : LatLng), 3 ≤ ring.length →
      ((ConvexCCW (fun i => ring.getD i default) ring.length ∧
        InsideCCW (fun i => ring.getD i default) ring.length p) ∨
       (ConvexCW (fun i => ring.getD i default) ring.length ∧
        InsideCW (fun i => ring.getD i default) ring.length p)) →
      isPointInPolygon p ring = true) ∧
    (∀ (ring : List LatLng) (p : LatLng),
      ((∀ q ∈ ring, q.lat < p.lat) ∨ (∀ q ∈ ring, p.lat < q.lat) ∨
       (∀ q ∈ ring, q.lng < p.lng) ∨ (∀ q ∈ ring, p.lng < q.lng)) →
      isPointInPolygon p ring = false) := by
  constructor
  · intro ring p hn hc
    rcases hc with ⟨hconv, hins⟩ | ⟨hconv, hins⟩
    · exact isPointInPolygon_of_inside_ccw ring p hn hconv hins
    · exact isPointInPolygon_of_inside_cw ring p hn hconv hins
  · intro ring p h
    exact isPointInPolygon_outside_bbox ring p h

/-- Witness for C8: the square with corners (0,0), (4,0), (4,4), (0,4),
its strictly interior point (2,2), and the exterior point (5,2). -/
theorem claim_C8_witness :
    isPointInPolygon ⟨2, 2⟩ [⟨0, 0⟩, ⟨4, 0⟩, ⟨4, 4⟩, ⟨0, 4⟩] = true ∧
    isPointInPolygon ⟨5, 2⟩ [⟨0, 0⟩, ⟨4, 0⟩, ⟨4, 4⟩, ⟨0, 4⟩] = false := by
  constructor
  · refine claim_C8.1 [⟨0, 0⟩, ⟨4, 0⟩, ⟨4, 4⟩, ⟨0, 4⟩] ⟨2, 2⟩ (by norm_num)
      (Or.inl ⟨?_, ?_⟩)
    · intro k hk j hj i hi
      have hk4 : k < 4 := by simpa using hk
      interval_cases k <;> interval_cases j <;> interval_cases i <;>
        norm_num [cross, List.getD]
    · intro i hi
      have hi4 : i < 4 := by simpa using hi
      interval_cases i <;> norm_num [cross, List.getD]
  · refine claim_C8.2 [⟨0, 0⟩, ⟨4, 0⟩, ⟨4, 4⟩, ⟨0, 4⟩] ⟨5, 2⟩ (Or.inl ?_)
    intro q hq
    simp only [List.mem_cons, List.not_mem_nil, or_false] at hq
    rcases hq with rfl | rfl | rfl | rfl <;> norm_num

/-- C7: the centroid function returns the arithmetic mean of the vertices of
the first ring of the first polygon only, ignoring all further rings and
polygons, and on the square ring `[(0,0),(2,0),(2,2),(0,2)]` (given as
`(lng, lat)` pairs) it returns `(1, 1)` in the post-axis-swap `(lat, lng)`
convention. -/
theorem claim_C7 (ring : List (ℚ × ℚ)) (restRings : List (List (ℚ × ℚ)))
    (restPolys : List (List (List (ℚ × ℚ)))) (h : ring ≠ []) :
    calculatePolygonCentroid ((ring :: restRings) :: restPolys) =
      calculatePolygonCentroid [[ring]] ∧
    calculatePolygonCentroid [[ring]] =
      ((ring.map Prod.snd).sum / (ring.length : ℚ),
       (ring.map Prod.fst).sum / (ring.length : ℚ)) ∧
    calculatePolygonCentroid [[[(0, 0), (2, 0), (2, 2), (0, 2)]]] = (1, 1) := by
  refine ⟨rfl, rfl, ?_⟩
  norm_num [calculatePolygonCentroid]

/-- Witness for C7 at the concrete square ring. -/
theorem claim_C7_witness :
    calculatePolygonCentroid [[[((0 : ℚ), (0 : ℚ)), (2, 0), (2, 2), (0, 2)]]] =
      calculatePolygonCentroid [[[((0 : ℚ), (0 : ℚ)), (2, 0), (2, 2), (0, 2)]]] ∧
    calculatePolygonCentroid [[[((0 : ℚ), (0 : ℚ)), (2, 0), (2, 2), (0, 2)]]] =
      (([((0 : ℚ), (0 : ℚ)), (2, 0), (2, 2), (0, 2)].map Prod.snd).sum / 4,
       ([((0 : ℚ), (0 : ℚ)), (2, 0), (2, 2), (0, 2)].map Prod.fst).sum / 4) ∧
    calculatePolygonCentroid [[[(0, 0), (2, 0), (2, 2), (0, 2)]]] = (1, 1) :=
  claim_C7 [(0, 0), (2, 0), (2, 2), (0, 2)] [] [] (List.cons_ne_nil _ _)

/-- C10: the closing duplicate vertex of a standard GeoJSON closed ring is
counted in the mean, so the closed square ring
`[(0,0),(2,0),(2,2),(0,2),(0,0)]` yields `(4/5, 4/5) = (0.8, 0.8)`, not
`(1, 1)`. -/
theorem claim_C10 :
    calculatePolygonCentroid [[[(0, 0), (2, 0), (2, 2), (0, 2), (0, 0)]]] =
      (4 / 5, 4 / 5) ∧
    ((4 / 5 : ℚ), (4 / 5 : ℚ)) ≠ ((1 : ℚ), (1 : ℚ)) := by
  constructor
  · norm_num [calculatePolygonCentroid]
  · norm_num

end GBFS
